import Mathlib

/-!
# Verification of the wa-modules-loader export engine

A shallow embedding of the extraction/export core of `src/export/worker.ts`
(the module-bundle splitter of wa-modules-loader), together with theorems
settling the specification claims about it.

Source text is modeled as `List Char` (one entry per UTF-16 code unit of the
JavaScript string; every input of interest is ASCII).  Reading `source[i]`
out of range yields `undefined` in JavaScript, which compares unequal to any
one-character string; we model it by the NUL character, which likewise
differs from every character the scanner compares against.

Loops are modeled by structurally recursive functions with an explicit fuel
argument, so every definition is executable and kernel-reducible; the
termination theorems show the canonical fuel always suffices.
-/

namespace WaExport

/-- NUL stand-in for JavaScript `undefined` / `''` when indexing out of range. -/
def nulChar : Char := Char.ofNat 0

/-- Backtick character (template-literal delimiter). -/
def btick : Char := Char.ofNat 96

/-- Single-quote character. -/
def squote : Char := Char.ofNat 39

/-- Double-quote character. -/
def dquote : Char := Char.ofNat 34

/-- Opening curly brace. -/
def lbrace : Char := Char.ofNat 123

/-- Closing curly brace. -/
def rbrace : Char := Char.ofNat 125

/-- Backslash character. -/
def bslash : Char := Char.ofNat 92

/-- Newline character. -/
def nlChar : Char := Char.ofNat 10

/-- `source[i]` of JavaScript: the character at index `i`, NUL when out of range. -/
def charAtD (cs : List Char) (i : Nat) : Char := cs.getD i nulChar

/-- `i + 1 < source.length ? source[i + 1] : ''` of the scanner loops. -/
def nextAt (cs : List Char) (i : Nat) : Char := cs.getD (i + 1) nulChar

/-- JavaScript `/\s/` character class (the whitespace set of ECMAScript). -/
def isSpaceJS (c : Char) : Bool :=
  let n := c.toNat
  (9 ≤ n ∧ n ≤ 13) ∨ n = 32 ∨ n = 160 ∨ n = 0x1680 ∨ (0x2000 ≤ n ∧ n ≤ 0x200A) ∨
    n = 0x2028 ∨ n = 0x2029 ∨ n = 0x202F ∨ n = 0x205F ∨ n = 0x3000 ∨ n = 0xFEFF

/-- JavaScript `/[\w$]/`: identifier-ish characters used by the regex lookback. -/
def isWordDollar (c : Char) : Bool :=
  (('a' ≤ c ∧ c ≤ 'z') ∨ ('A' ≤ c ∧ c ≤ 'Z') ∨ ('0' ≤ c ∧ c ≤ '9')) ∨ c = '_' ∨ c = '$'

/-- Boolean list-prefix test (JavaScript `String.prototype.startsWith`). -/
def isPrefixList : List Char → List Char → Bool
  | [], _ => true
  | _ :: _, [] => false
  | p :: ps, c :: cs => p = c ∧ isPrefixList ps cs

/-- `source.startsWith(pat, i)`. -/
def startsAt (cs : List Char) (i : Nat) (pat : List Char) : Bool :=
  isPrefixList pat (cs.drop i)

/-- The module-call marker `__d(`. -/
def markerChars : List Char := ['_', '_', 'd', '(']

/-- `source.slice(s, e)` for `0 ≤ s ≤ e ≤ length`. -/
def sliceList (cs : List Char) (s e : Nat) : List Char := (cs.drop s).take (e - s)

/-! ## The regex-vs-division lookback heuristic (`looksLikeRegexStart`) -/

/-- Backward scan of `looksLikeRegexStart`: greatest index `j < i` whose
character is not JavaScript whitespace, `none` when all of them are. -/
def lastNonWsBack (cs : List Char) : Nat → Option Nat
  | 0 => none
  | j + 1 => if isSpaceJS (charAtD cs j) then lastNonWsBack cs j else some j

/-- Backward word scan of `looksLikeRegexStart`: start index of the maximal
`[\w$]` run that ends just below position `n`. -/
def wordStartBack (cs : List Char) : Nat → Nat
  | 0 => 0
  | j + 1 => if isWordDollar (charAtD cs j) then wordStartBack cs j else j + 1

/-- Punctuation that makes a following `/` start a regex literal. -/
def regexOpChars : List Char :=
  ['(', '[', lbrace, ',', ':', ';', '=', '!', '?', '~', '+', '-', '*', '%', '&', '|', '^', '<', '>']

/-- `looksLikeRegexStart(source, slashIdx)`: decides whether a `/` in code
context begins a regular-expression literal (lookback heuristic). -/
def looksLikeRegexStart (cs : List Char) (slashIdx : Nat) : Bool :=
  let nx := nextAt cs slashIdx
  if nx = '/' ∨ nx = '*' then false
  else
    match lastNonWsBack cs slashIdx with
    | none => true
    | some j =>
      let prev := charAtD cs j
      if prev = ')' ∨ prev = ']' ∨ prev = rbrace then false
      else if isWordDollar prev then
        let ws := wordStartBack cs j
        let word := sliceList cs ws (j + 1)
        word = "return".toList ∨ word = "throw".toList ∨ word = "case".toList
      else if prev = '.' ∨ prev = dquote ∨ prev = squote ∨ prev = btick then false
      else if prev ∈ regexOpChars then true
      else false

/-! ## Lexical context tracker -/

/-- Lexical mode of the scanner (`mode` variable of the source). -/
inductive Mode where
  | code
  | single
  | double
  | template
  | regex (inClass : Bool)
  | lineComment
  | blockComment
deriving DecidableEq, Repr

/-- Full scanner state: mode, `templateExprDepth` and `templateExprStack`. -/
structure ScanSt where
  mode : Mode
  tdepth : Nat
  tstack : List Nat
deriving DecidableEq, Repr

/-- Scanner state at the start of a scan. -/
def initScan : ScanSt := ⟨Mode.code, 0, []⟩

/-- Outcome of one loop iteration of `findNextDCallStart`: either the marker
was found at the current index, or the scan continues at `i` with state `st`. -/
inductive FindOut where
  | found
  | cont (st : ScanSt) (i : Nat)
deriving DecidableEq, Repr

/-- Second half of the `mode === 'code'` iteration of `findNextDCallStart`:
`templateExprDepth` bookkeeping and the marker test (the bookkeeping that
does not re-enter template mode falls through to the marker test, which a
brace can never pass). -/
def stepFindCodeTail (cs : List Char) (st : ScanSt) (i : Nat) : FindOut :=
  if 0 < st.tdepth ∧ charAtD cs i = lbrace then
    FindOut.cont ⟨Mode.code, st.tdepth + 1, st.tstack⟩ (i + 1)
  else if 0 < st.tdepth ∧ charAtD cs i = rbrace then
    if st.tdepth = 1 then FindOut.cont ⟨Mode.template, 0, st.tstack⟩ (i + 1)
    else FindOut.cont ⟨Mode.code, st.tdepth - 1, st.tstack⟩ (i + 1)
  else if charAtD cs i = '_' ∧ startsAt cs i markerChars then FindOut.found
  else FindOut.cont st (i + 1)

/-- Entry dispatch of the `mode === 'code'` iteration: comments, strings,
template literals and regex literals; everything else falls through to
`stepFindCodeTail`. -/
def stepFindCode (cs : List Char) (st : ScanSt) (i : Nat) : FindOut :=
  if charAtD cs i = '/' ∧ nextAt cs i = '/' then FindOut.cont ⟨Mode.lineComment, st.tdepth, st.tstack⟩ (i + 2)
  else if charAtD cs i = '/' ∧ nextAt cs i = '*' then FindOut.cont ⟨Mode.blockComment, st.tdepth, st.tstack⟩ (i + 2)
  else if charAtD cs i = squote then FindOut.cont ⟨Mode.single, st.tdepth, st.tstack⟩ (i + 1)
  else if charAtD cs i = dquote then FindOut.cont ⟨Mode.double, st.tdepth, st.tstack⟩ (i + 1)
  else if charAtD cs i = btick then FindOut.cont ⟨Mode.template, 0, st.tdepth :: st.tstack⟩ (i + 1)
  else if charAtD cs i = '/' ∧ looksLikeRegexStart cs i then
    FindOut.cont ⟨Mode.regex false, st.tdepth, st.tstack⟩ (i + 1)
  else stepFindCodeTail cs st i

/-- One iteration of the `findNextDCallStart` loop at index `i` (assumed in
range), statement for statement from the source. -/
def stepFind (cs : List Char) (st : ScanSt) (i : Nat) : FindOut :=
  match st.mode with
  | Mode.lineComment =>
      if charAtD cs i = nlChar then FindOut.cont ⟨Mode.code, st.tdepth, st.tstack⟩ (i + 1)
      else FindOut.cont st (i + 1)
  | Mode.blockComment =>
      if charAtD cs i = '*' ∧ nextAt cs i = '/' then FindOut.cont ⟨Mode.code, st.tdepth, st.tstack⟩ (i + 2)
      else FindOut.cont st (i + 1)
  | Mode.single =>
      if charAtD cs i = bslash then FindOut.cont st (i + 2)
      else if charAtD cs i = squote then FindOut.cont ⟨Mode.code, st.tdepth, st.tstack⟩ (i + 1)
      else FindOut.cont st (i + 1)
  | Mode.double =>
      if charAtD cs i = bslash then FindOut.cont st (i + 2)
      else if charAtD cs i = dquote then FindOut.cont ⟨Mode.code, st.tdepth, st.tstack⟩ (i + 1)
      else FindOut.cont st (i + 1)
  | Mode.template =>
      if charAtD cs i = bslash then FindOut.cont st (i + 2)
      else if charAtD cs i = btick then
        match st.tstack with
        | [] => FindOut.cont ⟨Mode.code, 0, []⟩ (i + 1)
        | d :: rest => FindOut.cont ⟨Mode.code, d, rest⟩ (i + 1)
      else if charAtD cs i = '$' ∧ nextAt cs i = lbrace then FindOut.cont ⟨Mode.code, 1, st.tstack⟩ (i + 2)
      else FindOut.cont st (i + 1)
  | Mode.regex inClass =>
      if charAtD cs i = bslash then FindOut.cont st (i + 2)
      else if charAtD cs i = '[' then FindOut.cont ⟨Mode.regex true, st.tdepth, st.tstack⟩ (i + 1)
      else if charAtD cs i = ']' ∧ inClass then FindOut.cont ⟨Mode.regex false, st.tdepth, st.tstack⟩ (i + 1)
      else if charAtD cs i = '/' ∧ ¬inClass then FindOut.cont ⟨Mode.code, st.tdepth, st.tstack⟩ (i + 1)
      else FindOut.cont st (i + 1)
  | Mode.code => stepFindCode cs st i

/-- The `findNextDCallStart` loop with explicit fuel.  `none` means the fuel
ran out (shown impossible for the canonical fuel below); `some none` is the
source's `-1` (no marker), `some (some r)` reports the marker at offset `r`. -/
def fndLoopF (cs : List Char) : Nat → ScanSt → Nat → Option (Option Nat)
  | 0, _, _ => none
  | fuel + 1, st, i =>
    if i < cs.length then
      match stepFind cs st i with
      | FindOut.found => some (some i)
      | FindOut.cont st' i' => fndLoopF cs fuel st' i'
    else some none

/-- `findNextDCallStart(source, fromIdx)`: next `__d(` occurrence in code
context at or after `fromIdx`, `none` for the source's `-1`. -/
def findNextDCallStart (cs : List Char) (fromIdx : Nat) : Option Nat :=
  (fndLoopF cs (cs.length + 1) initScan fromIdx).getD none

/-! ## Balanced-extent matcher (`findMatchingParen`) -/

/-- State of the `findMatchingParen` loop: the shared lexical state plus the
parenthesis `depth`.  Depth is an `Int` because the JavaScript counter can go
negative when the scan does not begin at an opening parenthesis. -/
structure PSt where
  sc : ScanSt
  depth : Int
deriving DecidableEq, Repr

/-- Outcome of one iteration of the `findMatchingParen` loop. -/
inductive ParenOut where
  | found
  | cont (st : PSt) (i : Nat)
deriving DecidableEq, Repr

/-- Second half of the `mode === 'code'` iteration of `findMatchingParen`:
`templateExprDepth` bookkeeping and the parenthesis counting.  `.found`
reports the matching close at the current index. -/
def stepParenCodeTail (cs : List Char) (st : PSt) (i : Nat) : ParenOut :=
  if 0 < st.sc.tdepth ∧ charAtD cs i = lbrace then
    ParenOut.cont ⟨⟨Mode.code, st.sc.tdepth + 1, st.sc.tstack⟩, st.depth⟩ (i + 1)
  else if 0 < st.sc.tdepth ∧ charAtD cs i = rbrace then
    if st.sc.tdepth = 1 then ParenOut.cont ⟨⟨Mode.template, 0, st.sc.tstack⟩, st.depth⟩ (i + 1)
    else ParenOut.cont ⟨⟨Mode.code, st.sc.tdepth - 1, st.sc.tstack⟩, st.depth⟩ (i + 1)
  else if charAtD cs i = '(' then ParenOut.cont ⟨st.sc, st.depth + 1⟩ (i + 1)
  else if charAtD cs i = ')' then
    if st.depth - 1 = 0 then ParenOut.found
    else ParenOut.cont ⟨st.sc, st.depth - 1⟩ (i + 1)
  else ParenOut.cont st (i + 1)

/-- Entry dispatch of the `mode === 'code'` iteration of `findMatchingParen`:
identical to `stepFindCode`, falling through to the parenthesis counting of
`stepParenCodeTail`. -/
def stepParenCode (cs : List Char) (st : PSt) (i : Nat) : ParenOut :=
  if charAtD cs i = '/' ∧ nextAt cs i = '/' then
    ParenOut.cont ⟨⟨Mode.lineComment, st.sc.tdepth, st.sc.tstack⟩, st.depth⟩ (i + 2)
  else if charAtD cs i = '/' ∧ nextAt cs i = '*' then
    ParenOut.cont ⟨⟨Mode.blockComment, st.sc.tdepth, st.sc.tstack⟩, st.depth⟩ (i + 2)
  else if charAtD cs i = squote then
    ParenOut.cont ⟨⟨Mode.single, st.sc.tdepth, st.sc.tstack⟩, st.depth⟩ (i + 1)
  else if charAtD cs i = dquote then
    ParenOut.cont ⟨⟨Mode.double, st.sc.tdepth, st.sc.tstack⟩, st.depth⟩ (i + 1)
  else if charAtD cs i = btick then
    ParenOut.cont ⟨⟨Mode.template, 0, st.sc.tdepth :: st.sc.tstack⟩, st.depth⟩ (i + 1)
  else if charAtD cs i = '/' ∧ looksLikeRegexStart cs i then
    ParenOut.cont ⟨⟨Mode.regex false, st.sc.tdepth, st.sc.tstack⟩, st.depth⟩ (i + 1)
  else stepParenCodeTail cs st i

/-- One iteration of the `findMatchingParen` loop at index `i`: identical
lexical dispatch to `stepFind`, with parenthesis counting in place of the
marker test. -/
def stepParen (cs : List Char) (st : PSt) (i : Nat) : ParenOut :=
  match st.sc.mode with
  | Mode.lineComment =>
      if charAtD cs i = nlChar then ParenOut.cont ⟨⟨Mode.code, st.sc.tdepth, st.sc.tstack⟩, st.depth⟩ (i + 1)
      else ParenOut.cont st (i + 1)
  | Mode.blockComment =>
      if charAtD cs i = '*' ∧ nextAt cs i = '/' then
        ParenOut.cont ⟨⟨Mode.code, st.sc.tdepth, st.sc.tstack⟩, st.depth⟩ (i + 2)
      else ParenOut.cont st (i + 1)
  | Mode.single =>
      if charAtD cs i = bslash then ParenOut.cont st (i + 2)
      else if charAtD cs i = squote then
        ParenOut.cont ⟨⟨Mode.code, st.sc.tdepth, st.sc.tstack⟩, st.depth⟩ (i + 1)
      else ParenOut.cont st (i + 1)
  | Mode.double =>
      if charAtD cs i = bslash then ParenOut.cont st (i + 2)
      else if charAtD cs i = dquote then
        ParenOut.cont ⟨⟨Mode.code, st.sc.tdepth, st.sc.tstack⟩, st.depth⟩ (i + 1)
      else ParenOut.cont st (i + 1)
  | Mode.template =>
      if charAtD cs i = bslash then ParenOut.cont st (i + 2)
      else if charAtD cs i = btick then
        match st.sc.tstack with
        | [] => ParenOut.cont ⟨⟨Mode.code, 0, []⟩, st.depth⟩ (i + 1)
        | d :: rest => ParenOut.cont ⟨⟨Mode.code, d, rest⟩, st.depth⟩ (i + 1)
      else if charAtD cs i = '$' ∧ nextAt cs i = lbrace then
        ParenOut.cont ⟨⟨Mode.code, 1, st.sc.tstack⟩, st.depth⟩ (i + 2)
      else ParenOut.cont st (i + 1)
  | Mode.regex inClass =>
      if charAtD cs i = bslash then ParenOut.cont st (i + 2)
      else if charAtD cs i = '[' then
        ParenOut.cont ⟨⟨Mode.regex true, st.sc.tdepth, st.sc.tstack⟩, st.depth⟩ (i + 1)
      else if charAtD cs i = ']' ∧ inClass then
        ParenOut.cont ⟨⟨Mode.regex false, st.sc.tdepth, st.sc.tstack⟩, st.depth⟩ (i + 1)
      else if charAtD cs i = '/' ∧ ¬inClass then
        ParenOut.cont ⟨⟨Mode.code, st.sc.tdepth, st.sc.tstack⟩, st.depth⟩ (i + 1)
      else ParenOut.cont st (i + 1)
  | Mode.code => stepParenCode cs st i

/-- The `findMatchingParen` loop with explicit fuel; `some none` is the
source's thrown `UnterminatedCall` error (end of input reached). -/
def parenLoopF (cs : List Char) : Nat → PSt → Nat → Option (Option Nat)
  | 0, _, _ => none
  | fuel + 1, st, i =>
    if i < cs.length then
      match stepParen cs st i with
      | ParenOut.found => some (some i)
      | ParenOut.cont st' i' => parenLoopF cs fuel st' i'
    else some none

/-- `findMatchingParen(source, openParenIdx)`: offset of the matching closing
parenthesis, `none` for the thrown `UnterminatedCall` error. -/
def findMatchingParen (cs : List Char) (openParenIdx : Nat) : Option Nat :=
  (parenLoopF cs (cs.length + 1) ⟨initScan, 0⟩ openParenIdx).getD none

/-! ## Module extractor (`extractDCalls`) -/

/-- `while (end < source.length && /\s/.test(source[end])) end++`, with fuel. -/
def skipWsF (cs : List Char) : Nat → Nat → Nat
  | 0, e => e
  | fuel + 1, e =>
    if e < cs.length ∧ isSpaceJS (charAtD cs e) then skipWsF cs fuel (e + 1) else e

/-- First non-whitespace offset at or after `e` (capped at the input length). -/
def skipWs (cs : List Char) (e : Nat) : Nat := skipWsF cs cs.length e

/-- End offset of an extracted span whose matching close parenthesis sits at
`close`: skip trailing whitespace, then one `;` statement terminator. -/
def endOfSpan (cs : List Char) (close : Nat) : Nat :=
  let e0 := skipWs cs (close + 1)
  if charAtD cs e0 = ';' then e0 + 1 else e0

/-- The `extractDCalls` while-loop with fuel, producing the `(start, end)`
offset pairs of the pushed slices.  A failed `findMatchingParen` (the caught
`UnterminatedCall`) advances the cursor past the `__d(` token and continues;
the accompanying `console.error` warning is host I/O and has no pure content. -/
def extractSpansF (cs : List Char) : Nat → Nat → List (Nat × Nat)
  | 0, _ => []
  | fuel + 1, i =>
    if i < cs.length then
      match findNextDCallStart cs i with
      | none => []
      | some s =>
        match findMatchingParen cs (s + 3) with
        | none => extractSpansF cs fuel (s + 4)
        | some c => (s, endOfSpan cs c) :: extractSpansF cs fuel (endOfSpan cs c)
    else []

/-- Extraction spans starting from cursor `i`, at the canonical fuel. -/
def extractSpansFrom (cs : List Char) (i : Nat) : List (Nat × Nat) :=
  extractSpansF cs (cs.length + 1) i

/-- `extractDCalls(source)`: the extracted raw texts, in source order.  The
source pushes `source.slice(start, end)` directly; the embedding exposes the
(start, end) pairs and takes the same slices. -/
def extractDCalls (cs : List Char) : List (List Char) :=
  (extractSpansFrom cs 0).map fun p => sliceList cs p.1 p.2

/-! ## Declared-name reading (`extractFirstStringArg`) -/

/-- `dCall.indexOf('__d(')`: offset of the first marker occurrence. -/
def indexOfMarkerAux (cs : List Char) : Nat → Nat → Option Nat
  | 0, _ => none
  | fuel + 1, i =>
    if i < cs.length then
      if startsAt cs i markerChars then some i else indexOfMarkerAux cs fuel (i + 1)
    else none

/-- First offset of `__d(` in a string, `none` for the source's `-1`. -/
def indexOfMarker (cs : List Char) : Option Nat := indexOfMarkerAux cs (cs.length + 1) 0

/-- Body loop of `extractFirstStringArg`: read a quoted literal up to the
closing `quote`, a `\` taking the following character verbatim; reaching the
end of input without the closing quote yields `none` (the source's `null`). -/
def readQuoted (quote : Char) : List Char → Option (List Char)
  | [] => none
  | c :: rest =>
    if c = bslash then
      match rest with
      | [] => none
      | c' :: rest' => (readQuoted quote rest').map fun out => c' :: out
    else if c = quote then some []
    else (readQuoted quote rest).map fun out => c :: out

/-- `extractFirstStringArg(dCall)`: the unescaped first string argument of a
`__d(...)` call, or `none` when the first argument is not a string literal. -/
def extractFirstStringArg (d : List Char) : Option (List Char) :=
  match indexOfMarker d with
  | none => none
  | some st =>
    let rest := (d.drop (st + 4)).dropWhile isSpaceJS
    match rest with
    | [] => none
    | q :: tl => if q = dquote ∨ q = squote then readQuoted q tl else none

/-! ## Naming and grouping -/

/-- `String.prototype.trim` (strip JavaScript whitespace at both ends). -/
def trimJS (l : List Char) : List Char :=
  ((l.dropWhile isSpaceJS).reverse.dropWhile isSpaceJS).reverse

/-- The character class `[\w\[\]-]` of the naming regexes. -/
def isWordBracket (c : Char) : Bool :=
  (('a' ≤ c ∧ c ≤ 'z') ∨ ('A' ≤ c ∧ c ≤ 'Z') ∨ ('0' ≤ c ∧ c ≤ '9')) ∨
    c = '_' ∨ c = '-' ∨ c = '[' ∨ c = ']'

/-- `/^[\w\[\]-]+/.test(rawName)`: at least one leading class character. -/
def jsNameTestOk (r : List Char) : Bool :=
  match r with
  | [] => false
  | c :: _ => isWordBracket c

/-- `name.replace(/[^\w\-\[\]]+/g, '_')`: each maximal run of characters
outside the class becomes a single `_`.  The flag records whether the
previous character belonged to such a run. -/
def sanitizeAux : Bool → List Char → List Char
  | _, [] => []
  | inRun, c :: rest =>
    if isWordBracket c then c :: sanitizeAux false rest
    else if inRun then sanitizeAux true rest
    else '_' :: sanitizeAux true rest

/-- Sanitized form of a declared name. -/
def sanitizeName (l : List Char) : List Char := sanitizeAux false l

/-- Decimal digit list of `n` in little-endian order, with fuel. -/
def natCharsAux : Nat → Nat → List Char
  | 0, _ => []
  | fuel + 1, n => if n = 0 then [] else Char.ofNat (48 + n % 10) :: natCharsAux fuel (n / 10)

/-- Decimal rendering of a natural number (JavaScript number-to-string for
the integer counters of the source). -/
def natChars (n : Nat) : List Char := if n = 0 then ['0'] else (natCharsAux n n).reverse

/-- The synthetic name `module_<n>`. -/
def moduleChars (n : Nat) : List Char := "module_".toList ++ natChars n

/-- The branding token `WAWeb` stripped by name normalization. -/
def waWebChars : List Char := "WAWeb".toList

/-- `normalizeForMerge(name)`: strip one leading `WAWeb` branding token. -/
def normalizeForMerge (n : List Char) : List Char :=
  if isPrefixList waWebChars n then n.drop 5 else n

/-- SHA-1 digest used by `safeNameComponent` for names longer than 80
characters.  The digest comes from Node's external `crypto` library (not part
of this repository's sources); it only ever contributes an unspecified 10-hex-char
tail to over-long directory names, and no claim concerns such names, so it is
modeled as a fixed 10-character function. -/
def digestStub (_ : List Char) : List Char := List.replicate 10 'x'

/-- The fallback component `group`. -/
def groupChars : List Char := "group".toList

/-- `safeNameComponent(name)`: sanitize and trim, fall back to `group`, and
hash-truncate names longer than 80 characters (`80 - (1 + 10) = 69`). -/
def safeNameComponent (name : List Char) : List Char :=
  let cleaned := trimJS (sanitizeName name)
  let raw := if cleaned = [] then groupChars else cleaned
  if raw.length ≤ 80 then raw else raw.take 69 ++ '_' :: digestStub raw

/-- `longestCommonPrefix(a, b)` of the clustering code. -/
def longestCommonPrefixOf : List Char → List Char → List Char
  | a :: as, b :: bs => if a = b then a :: longestCommonPrefixOf as bs else []
  | _, _ => []

/-- Code-unit lexicographic strict order on character lists.  Models the
`a.norm.localeCompare(b.norm) < 0` comparator: for the ASCII identifier names
the clustering sorts, locale order and code-unit order agree. -/
def lexLtChars : List Char → List Char → Bool
  | _, [] => false
  | [], _ :: _ => true
  | a :: as, b :: bs => if a = b then lexLtChars as bs else decide (a < b)

/-- Stable insertion of `x` into a list sorted by `lt` (ties keep the
existing element first, as JavaScript's stable `Array.prototype.sort` does). -/
def insertSorted (lt : α → α → Bool) (x : α) : List α → List α
  | [] => [x]
  | y :: ys => if lt x y then x :: y :: ys else y :: insertSorted lt x ys

/-- Stable insertion sort by the strict comparator `lt`. -/
def sortByBool (lt : α → α → Bool) (l : List α) : List α :=
  l.foldl (fun acc x => insertSorted lt x acc) []

/-- A clustering prefix: representative raw name and normalized form. -/
structure MP where
  raw : List Char
  norm : List Char
deriving DecidableEq, Repr

/-- `JS Set.add`: append if absent (insertion order preserved). -/
def dedupAdd (l : List (List Char)) (x : List Char) : List (List Char) :=
  if x ∈ l then l else l ++ [x]

/-- The `prefixMembers` map: insertion-ordered association list from a common
prefix to the (deduplicated) raw names that realize it. -/
abbrev PM := List (List Char × List (List Char))

/-- Record that `r1` and `r2` share the common prefix `key`. -/
def pmAdd : PM → List Char → List Char → List Char → PM
  | [], k, r1, r2 => [(k, dedupAdd (dedupAdd [] r1) r2)]
  | (k', ms) :: rest, k, r1, r2 =>
    if k' = k then (k', dedupAdd (dedupAdd ms r1) r2) :: rest
    else (k', ms) :: pmAdd rest k r1 r2

/-- Inner loop of `computeMergePrefixes`: pair `x` with each later item until
the common prefix drops below `minLen` (the sorted order makes the common
prefix non-increasing, so the source `break`s there). -/
def innerPairs (x : MP) (minLen : Nat) : List MP → PM → PM
  | [], pm => pm
  | y :: ys, pm =>
    let l := longestCommonPrefixOf x.norm y.norm
    if l.length < minLen then pm
    else innerPairs x minLen ys (pmAdd pm l x.raw y.raw)

/-- Outer loop of `computeMergePrefixes` over the sorted items. -/
def outerPairs (minLen : Nat) : List MP → PM → PM
  | [], pm => pm
  | x :: xs, pm => outerPairs minLen xs (innerPairs x minLen xs pm)

/-- Comparator of the candidate sort: longer prefix first, then larger
member set (`b[0].length - a[0].length || b[1].size - a[1].size`). -/
def candLt (a b : List Char × List (List Char)) : Bool :=
  b.1.length < a.1.length ∨ (a.1.length = b.1.length ∧ b.2.length < a.2.length)

/-- Greedy selection loop: a candidate is selected when at least `minMembers`
of its members are not yet covered; selecting it covers all its members. -/
def selectLoop (minMembers : Nat) : PM → List (List Char) → List (List Char)
  | [], _ => []
  | (k, ms) :: rest, covered =>
    let unc := ms.filter fun m => ¬ m ∈ covered
    if minMembers ≤ unc.length then
      k :: selectLoop minMembers rest (ms.foldl dedupAdd covered)
    else selectLoop minMembers rest covered

/-- `computeMergePrefixes(rawNames, minPrefixLen, minMembers)`: the selected
prefix clusters, each with a representative raw name that restores the
`WAWeb` branding when a strict majority of matching items carried it. -/
def computeMergePrefixes (rawNames : List (List Char)) (minPrefixLen minMembers : Nat) :
    List MP :=
  if rawNames.length < minMembers then []
  else
    let items := sortByBool (fun a b => lexLtChars a.norm b.norm)
      ((rawNames.map fun raw => MP.mk raw (normalizeForMerge raw)).filter
        fun x => minPrefixLen ≤ x.norm.length)
    let pm := outerPairs minPrefixLen items []
    let cands := sortByBool candLt (pm.filter fun e => minMembers ≤ e.2.length)
    let selected := selectLoop minMembers cands []
    selected.map fun norm =>
      let matching := items.filter fun it => isPrefixList norm it.norm
      let withWAWeb := (matching.filter fun it => isPrefixList waWebChars it.raw).length
      MP.mk (if matching.length < 2 * withWAWeb then waWebChars ++ norm else norm) norm

/-- `lastIndexOf('.')`, `none` for the source's `-1`. -/
def lastIndexOfCharAux (c : Char) : List Char → Nat → Option Nat → Option Nat
  | [], _, acc => acc
  | x :: rest, i, acc => lastIndexOfCharAux c rest (i + 1) (if x = c then some i else acc)

/-- Offset of the last occurrence of `c`, `none` when absent. -/
def lastIndexOfChar (l : List Char) (c : Char) : Option Nat := lastIndexOfCharAux c l 0 none

/-- Suffix-matching condition of the dotted-name branch of `pickMergeDir`. -/
def sufMatch (suffix : List Char) (p : MP) : Bool :=
  suffix = p.norm ∨ isPrefixList p.norm suffix

/-- Best (longest-`norm`) prefix matching the dotted suffix. -/
def bestSuffix (suffix : List Char) : List MP → Option MP → Option MP
  | [], best => best
  | p :: rest, best =>
    if sufMatch suffix p then
      match best with
      | none => bestSuffix suffix rest (some p)
      | some b =>
        if b.norm.length < p.norm.length then bestSuffix suffix rest (some p)
        else bestSuffix suffix rest (some b)
    else bestSuffix suffix rest best

/-- Best (longest-`norm`) prefix that prefixes the full normalized name. -/
def bestPref (norm : List Char) : List MP → Option MP → Option MP
  | [], best => best
  | p :: rest, best =>
    if isPrefixList p.norm norm then
      match best with
      | none => bestPref norm rest (some p)
      | some b =>
        if b.norm.length < p.norm.length then bestPref norm rest (some p)
        else bestPref norm rest (some b)
    else bestPref norm rest best

/-- `pickMergeDir(rawName, prefixes)`: directory for a module, matching the
suffix after the last dot first and the full normalized name otherwise. -/
def pickMergeDir (rawName : List Char) (prefixes : List MP) : Option (List Char) :=
  let norm := normalizeForMerge rawName
  let viaDot : Option MP :=
    match lastIndexOfChar norm '.' with
    | some dotIdx =>
      if 0 < dotIdx then bestSuffix (norm.drop (dotIdx + 1)) prefixes none else none
    | none => none
  match viaDot with
  | some best => some (safeNameComponent best.raw)
  | none => (bestPref norm prefixes none).map fun best => safeNameComponent best.raw

/-! ## Export-file building (`buildExportFiles`) -/

/-- One output file: relative path and content. -/
structure ExportFile where
  fileName : List Char
  content : List Char
deriving DecidableEq, Repr

/-- The `.js` extension. -/
def jsExt : List Char := ".js".toList

/-- Association-list lookup modeling `Map.prototype.get`. -/
def alookup : List (List Char × Nat) → List Char → Option Nat
  | [], _ => none
  | (k, v) :: rest, key => if k = key then some v else alookup rest key

/-- Association-list update modeling `Map.prototype.set`. -/
def aset : List (List Char × Nat) → List Char → Nat → List (List Char × Nat)
  | [], key, v => [(key, v)]
  | (k, v') :: rest, key, v =>
    if k = key then (key, v) :: rest else (k, v') :: aset rest key v

/-- The trimmed raw declared name of one call. -/
def rawNameOf (d : List Char) : List Char := trimJS ((extractFirstStringArg d).getD [])

/-- The `rawName && /^[\w\[\]-]+/.test(rawName)` guard. -/
def rawNameOk (r : List Char) : Bool := r ≠ [] ∧ jsNameTestOk r

/-- Base-name step of the export loop: the sanitized declared name when the
guard passes, otherwise the synthetic `module_<++count>` (pre-increment). -/
def baseOfStep (count : Nat) (d : List Char) : List Char × Nat :=
  let r := rawNameOf d
  if rawNameOk r then (sanitizeName r, count) else (moduleChars (count + 1), count + 1)

/-- `rawNamesForMerge` collection: the trimmed names passing the guard. -/
def collectRawNames (calls : List (List Char)) : List (List Char) :=
  calls.filterMap fun d =>
    let r := rawNameOf d
    if rawNameOk r then some r else none

/-- Main loop of `buildExportFiles` over the extracted calls, threading the
synthetic-name counter and the `usedNames` disambiguation map.  The content
of a file is the raw call text: the optional `maybeToIA` transform delegates
to the external terser minifier (out of scope per the spec) and never touches
`fileName`, which is all the claims concern. -/
def buildLoop (mergeCommonNames : Bool) (mergePrefixes : List MP) (disambiguate : Bool) :
    Nat → List (List Char × Nat) → List (List Char) → List ExportFile
  | _, _, [] => []
  | count, used, d :: rest =>
    let r := rawNameOf d
    let sb := baseOfStep count d
    let safeBaseBase := sb.1
    let count' := sb.2
    let seen := (alookup used safeBaseBase).getD 0
    let safeBase :=
      if disambiguate then
        if seen = 0 then safeBaseBase else safeBaseBase ++ '_' :: natChars (seen + 1)
      else safeBaseBase
    let used' := if disambiguate then aset used safeBaseBase (seen + 1) else used
    let relPath :=
      if mergeCommonNames ∧ rawNameOk r then
        match pickMergeDir r mergePrefixes with
        | some dir => dir ++ '/' :: (safeBase ++ jsExt)
        | none => safeBase ++ jsExt
      else safeBase ++ jsExt
    ExportFile.mk relPath d :: buildLoop mergeCommonNames mergePrefixes disambiguate count' used' rest

/-- `buildExportFiles(bundleContent, opts)`: extract the calls, compute the
merge prefixes when `mergeCommonNames` is on (externally supplied non-empty
list bypasses recomputation), then name every call in order. -/
def buildExportFiles (cs : List Char) (disambiguate mergeCommonNames : Bool)
    (mergeCommonPrefixes : Option (List (List Char))) : List ExportFile :=
  let calls := extractDCalls cs
  if calls = [] then []
  else
    let mergePrefixes :=
      if mergeCommonNames then
        match mergeCommonPrefixes with
        | some ps =>
          if ps ≠ [] then ps.map fun raw => MP.mk raw (normalizeForMerge raw)
          else computeMergePrefixes (collectRawNames calls) 3 2
        | none => computeMergePrefixes (collectRawNames calls) 3 2
      else []
    buildLoop mergeCommonNames mergePrefixes disambiguate 0 [] calls

/-! ### Specification-side description of disambiguation -/

/-- Number of occurrences of `b` in `l`. -/
def countOcc (b : List Char) (l : List (List Char)) : Nat :=
  (l.filter fun x => x = b).length

/-- Sequence of sanitized base names of the calls, threading the synthetic
counter exactly as the export loop does. -/
def basesAux (count : Nat) : List (List Char) → List (List Char)
  | [] => []
  | d :: rest => (baseOfStep count d).1 :: basesAux (baseOfStep count d).2 rest

/-- Base names of a call list. -/
def basesOf (calls : List (List Char)) : List (List Char) := basesAux 0 calls

/-- File name assigned to the occurrence of base `b` that has `k` earlier
occurrences of the same base: `b.js` first, then `b_<k+1>.js`. -/
def renderName (b : List Char) (k : Nat) : List Char :=
  if k = 0 then b ++ jsExt else b ++ '_' :: (natChars (k + 1) ++ jsExt)

/-- Specification of disambiguation: each base name gets a suffix determined
by the number of earlier occurrences of the same base. -/
def disambAux (prev : List (List Char)) : List (List Char) → List (List Char)
  | [] => []
  | b :: rest => renderName b (countOcc b prev) :: disambAux (prev ++ [b]) rest

/-- Disambiguated file names of a base-name sequence. -/
def disambNames (bases : List (List Char)) : List (List Char) := disambAux [] bases

/-! ## Bounded concurrency runner (`runWithConcurrency`)

`runWithConcurrency(items, limit, worker)` spawns
`min(max(1, floor(limit)), items.length)` runner loops sharing the `nextIdx`
counter and joins them with `Promise.all`.  JavaScript async functions run
uninterrupted between `await` points, so the read-and-increment of `nextIdx`
together with the worker invocation is one atomic step; a worker settles at
some later, scheduler-chosen moment.  We model each runner as a state in a
small interleaving transition system; `dispatched` and `completed` are ghost
histories of worker invocations and successful completions (a dispatch of
index `idx` is the invocation `worker(items[idx], idx)`). -/

/-- State of one runner loop. -/
inductive RState where
  | ready
  | running (idx : Nat)
  | done
  | failed (idx : Nat)
deriving DecidableEq, Repr

/-- Global state of one `runWithConcurrency` call. -/
structure RCState where
  next : Nat
  runners : List RState
  dispatched : List Nat
  completed : List Nat
deriving DecidableEq, Repr

/-- Initial state: `min(max(1, limit), len)` runners, all about to read
`nextIdx = 0`. -/
def initRC (len limit : Nat) : RCState :=
  RCState.mk 0 (List.replicate (min (max 1 limit) len) RState.ready) [] []

/-- The index a runner currently has in flight, if any. -/
def runOf : RState → Option Nat
  | RState.running i => some i
  | _ => none

/-- The index on which a runner's worker invocation failed, if any. -/
def failOf : RState → Option Nat
  | RState.failed i => some i
  | _ => none

/-- Indices currently in flight. -/
def runningIdxs (rs : List RState) : List Nat := rs.filterMap runOf

/-- Indices whose worker invocation failed. -/
def failedIdxs (rs : List RState) : List Nat := rs.filterMap failOf

/-- Interleaving semantics of the runner loops.  A `ready` runner atomically
reads and increments `nextIdx`, then either invokes the worker (`dispatch`)
or returns (`exitLoop`); a `running` runner's worker promise later resolves
(`complete`, looping back to `ready`) or rejects (`fail`, ending that runner
with a rejected promise). -/
inductive RStep (len : Nat) : RCState → RCState → Prop where
  | dispatch (k : Nat) (st : RCState)
      (h : st.runners.get? k = some RState.ready) (hlt : st.next < len) :
      RStep len st
        (RCState.mk (st.next + 1) (st.runners.set k (RState.running st.next))
          (st.dispatched ++ [st.next]) st.completed)
  | exitLoop (k : Nat) (st : RCState)
      (h : st.runners.get? k = some RState.ready) (hge : len ≤ st.next) :
      RStep len st
        (RCState.mk (st.next + 1) (st.runners.set k RState.done) st.dispatched st.completed)
  | complete (k idx : Nat) (st : RCState)
      (h : st.runners.get? k = some (RState.running idx)) :
      RStep len st
        (RCState.mk st.next (st.runners.set k RState.ready) st.dispatched
          (st.completed ++ [idx]))
  | fail (k idx : Nat) (st : RCState)
      (h : st.runners.get? k = some (RState.running idx)) :
      RStep len st
        (RCState.mk st.next (st.runners.set k (RState.failed idx)) st.dispatched st.completed)

/-- Reachability from the initial state of `runWithConcurrency`. -/
def RReach (len limit : Nat) (st : RCState) : Prop :=
  Relation.ReflTransGen (RStep len) (initRC len limit) st

/-- `Promise.all(runners)` can settle: it resolves once every runner has
returned, and rejects as soon as any runner's promise has rejected. -/
def canReturn (st : RCState) : Prop :=
  (∀ r ∈ st.runners, r = RState.done) ∨ failedIdxs st.runners ≠ []

instance (st : RCState) : Decidable (canReturn st) := by
  unfold canReturn
  exact inferInstance

/-! ## Worker pool (`WorkerPool`)

The pool keeps a single `tasks` map from request id to its pending promise,
and assigns incoming requests to workers round-robin.  The real task record
does not remember which worker owns a request; `assignedWorker` is a ghost
field recording the round-robin assignment so the per-worker claim can be
stated at all. -/

/-- One pending request of the pool. -/
structure PoolTask where
  id : Nat
  assignedWorker : Nat
deriving DecidableEq, Repr

/-- Pool state: worker count, round-robin cursor and the pending-task table. -/
structure PoolState where
  workerCount : Nat
  nextWorkerIdx : Nat
  tasks : List PoolTask
deriving DecidableEq, Repr

/-- `process(...)`: register the request and hand it to the next worker in
round-robin order. -/
def processAssign (st : PoolState) (taskId : Nat) : PoolState :=
  PoolState.mk st.workerCount ((st.nextWorkerIdx + 1) % st.workerCount)
    (st.tasks ++ [PoolTask.mk taskId st.nextWorkerIdx])

/-- `onWorkerError(e)` (the `error` handler installed on every worker): walk
the whole `tasks` map, deleting and rejecting every entry.  The handler never
consults which worker raised the error; it returns the rejected request ids
and the emptied pool. -/
def onWorkerError (st : PoolState) : List Nat × PoolState :=
  (st.tasks.map fun t => t.id, PoolState.mk st.workerCount st.nextWorkerIdx [])

/-! ## Lemmas about the scanner -/

theorem stepFindCodeTail_cont_lt (cs : List Char) (st st' : ScanSt) (i i' : Nat)
    (h : stepFindCodeTail cs st i = FindOut.cont st' i') : i < i' ∧ i' ≤ i + 2 := by
  unfold stepFindCodeTail at h
  repeat' split at h
  all_goals
    first
      | exact (FindOut.noConfusion h)
      | (injection h with h1 h2; omega)

theorem stepFindCode_cont_lt (cs : List Char) (st st' : ScanSt) (i i' : Nat)
    (h : stepFindCode cs st i = FindOut.cont st' i') : i < i' ∧ i' ≤ i + 2 := by
  unfold stepFindCode at h
  repeat' split at h
  all_goals
    first
      | exact (FindOut.noConfusion h)
      | (injection h with h1 h2; omega)
      | exact stepFindCodeTail_cont_lt cs st st' i i' h

theorem stepFind_cont_lt (cs : List Char) (st st' : ScanSt) (i i' : Nat)
    (h : stepFind cs st i = FindOut.cont st' i') : i < i' ∧ i' ≤ i + 2 := by
  cases st with
  | mk mode td ts =>
    cases mode <;> simp only [stepFind] at h <;> (repeat' split at h) <;>
      first
        | exact (FindOut.noConfusion h)
        | (injection h with h1 h2; omega)
        | exact stepFindCode_cont_lt cs _ st' i i' h

theorem stepParenCodeTail_cont_lt (cs : List Char) (st st' : PSt) (i i' : Nat)
    (h : stepParenCodeTail cs st i = ParenOut.cont st' i') : i < i' ∧ i' ≤ i + 2 := by
  unfold stepParenCodeTail at h
  repeat' split at h
  all_goals
    first
      | exact (ParenOut.noConfusion h)
      | (injection h with h1 h2; omega)

theorem stepParenCode_cont_lt (cs : List Char) (st st' : PSt) (i i' : Nat)
    (h : stepParenCode cs st i = ParenOut.cont st' i') : i < i' ∧ i' ≤ i + 2 := by
  unfold stepParenCode at h
  repeat' split at h
  all_goals
    first
      | exact (ParenOut.noConfusion h)
      | (injection h with h1 h2; omega)
      | exact stepParenCodeTail_cont_lt cs st st' i i' h

theorem stepParen_cont_lt (cs : List Char) (st st' : PSt) (i i' : Nat)
    (h : stepParen cs st i = ParenOut.cont st' i') : i < i' ∧ i' ≤ i + 2 := by
  cases st with
  | mk sc depth =>
    cases sc with
    | mk mode td ts =>
      cases mode <;> simp only [stepParen] at h <;> (repeat' split at h) <;>
        first
          | exact (ParenOut.noConfusion h)
          | (injection h with h1 h2; omega)
          | exact stepParenCode_cont_lt cs _ st' i i' h

theorem stepFindCodeTail_found (cs : List Char) (st : ScanSt) (i : Nat)
    (h : stepFindCodeTail cs st i = FindOut.found) :
    charAtD cs i = '_' ∧ startsAt cs i markerChars = true := by
  unfold stepFindCodeTail at h
  repeat' split at h
  all_goals
    first
      | exact (FindOut.noConfusion h)
      | (rename_i hcond; exact ⟨hcond.1, hcond.2⟩)

theorem stepFindCode_found (cs : List Char) (st : ScanSt) (i : Nat)
    (h : stepFindCode cs st i = FindOut.found) :
    charAtD cs i = '_' ∧ startsAt cs i markerChars = true := by
  unfold stepFindCode at h
  repeat' split at h
  all_goals
    first
      | exact (FindOut.noConfusion h)
      | exact stepFindCodeTail_found cs st i h

theorem stepFind_found (cs : List Char) (st : ScanSt) (i : Nat)
    (h : stepFind cs st i = FindOut.found) :
    st.mode = Mode.code ∧ charAtD cs i = '_' ∧ startsAt cs i markerChars = true := by
  cases st with
  | mk mode td ts =>
    cases mode <;> simp only [stepFind] at h <;> (repeat' split at h) <;>
      first
        | exact (FindOut.noConfusion h)
        | exact ⟨rfl, stepFindCode_found cs _ i h⟩

theorem fndLoopF_stable (cs : List Char) :
    ∀ f g : Nat, ∀ st : ScanSt, ∀ i : Nat, cs.length - i < f → cs.length - i < g →
      fndLoopF cs f st i = fndLoopF cs g st i := by
  intro f
  induction f with
  | zero => omega
  | succ f ih =>
    intro g st i hf hg
    match g, hg with
    | g + 1, _ =>
      simp only [fndLoopF]
      by_cases hi : i < cs.length
      · simp only [hi, if_true]
        cases hstep : stepFind cs st i with
        | found => rfl
        | cont st' i' =>
          have hlt := stepFind_cont_lt cs st st' i i' hstep
          exact ih g st' i' (by omega) (by omega)
      · simp [hi]

theorem fndLoopF_isSome (cs : List Char) :
    ∀ f : Nat, ∀ st : ScanSt, ∀ i : Nat, cs.length - i < f → (fndLoopF cs f st i).isSome := by
  intro f
  induction f with
  | zero => omega
  | succ f ih =>
    intro st i hf
    simp only [fndLoopF]
    by_cases hi : i < cs.length
    · simp only [hi, if_true]
      cases hstep : stepFind cs st i with
      | found => rfl
      | cont st' i' =>
        have hlt := stepFind_cont_lt cs st st' i i' hstep
        exact ih st' i' (by omega)
    · simp [hi]

theorem findNextDCallStart_eq_loop (cs : List Char) (i : Nat) (r : Option Nat)
    (h : findNextDCallStart cs i = r) :
    fndLoopF cs (cs.length + 1) initScan i = some r := by
  unfold findNextDCallStart at h
  cases hl : fndLoopF cs (cs.length + 1) initScan i with
  | none =>
    have := fndLoopF_isSome cs (cs.length + 1) initScan i (by omega)
    simp [hl] at this
  | some x => simp [hl] at h; simp [h]

/-- One in-range scanning step of the call locator. -/
def ScanStepR (cs : List Char) (p q : ScanSt × Nat) : Prop :=
  p.2 < cs.length ∧ stepFind cs p.1 p.2 = FindOut.cont q.1 q.2

/-- The lexical state machine's reachability between scan positions. -/
def ScanReach (cs : List Char) : ScanSt × Nat → ScanSt × Nat → Prop :=
  Relation.ReflTransGen (ScanStepR cs)

theorem fndLoopF_sound (cs : List Char) :
    ∀ f : Nat, ∀ st : ScanSt, ∀ i r : Nat, fndLoopF cs f st i = some (some r) →
      ∃ st' : ScanSt, ScanReach cs (st, i) (st', r) ∧ r < cs.length ∧
        stepFind cs st' r = FindOut.found ∧ i ≤ r := by
  intro f
  induction f with
  | zero => intro st i r h; simp [fndLoopF] at h
  | succ f ih =>
    intro st i r h
    simp only [fndLoopF] at h
    by_cases hi : i < cs.length
    · simp only [hi, if_true] at h
      cases hstep : stepFind cs st i with
      | found =>
        simp only [hstep] at h
        obtain rfl : i = r := by simpa using h
        exact ⟨st, Relation.ReflTransGen.refl, hi, hstep, le_refl i⟩
      | cont st1 i1 =>
        simp only [hstep] at h
        obtain ⟨st', hreach, hr, hfound, hle⟩ := ih st1 i1 r h
        have hlt := stepFind_cont_lt cs st st1 i i1 hstep
        exact ⟨st', Relation.ReflTransGen.head ⟨hi, hstep⟩ hreach, hr, hfound, by omega⟩
    · simp [hi] at h

theorem isPrefixList_length (p l : List Char) (h : isPrefixList p l = true) :
    p.length ≤ l.length := by
  induction p generalizing l with
  | nil => simp
  | cons c cs ih =>
    cases l with
    | nil => simp [isPrefixList] at h
    | cons x xs =>
      simp only [isPrefixList, Bool.and_eq_true, decide_eq_true_eq] at h
      simpa using ih xs (by simpa using h.2)

theorem startsAt_le_length (cs : List Char) (s : Nat)
    (h : startsAt cs s markerChars = true) : s + 4 ≤ cs.length := by
  have hlen := isPrefixList_length markerChars (cs.drop s) h
  simp only [markerChars, List.length_cons, List.length_nil, List.length_drop] at hlen
  omega

theorem isPrefixList_getD (p l : List Char) (h : isPrefixList p l = true) :
    ∀ k : Nat, k < p.length → l.getD k nulChar = p.getD k nulChar := by
  induction p generalizing l with
  | nil => simp
  | cons c cs ih =>
    cases l with
    | nil => simp [isPrefixList] at h
    | cons x xs =>
      simp only [isPrefixList, Bool.and_eq_true, decide_eq_true_eq] at h
      intro k hk
      cases k with
      | zero => simpa using h.1.symm
      | succ k => simpa using ih xs h.2 k (by simpa using hk)

theorem startsAt_charAt (cs : List Char) (s : Nat)
    (h : startsAt cs s markerChars = true) (k : Nat) (hk : k < 4) :
    charAtD cs (s + k) = markerChars.getD k nulChar := by
  have hd := isPrefixList_getD markerChars (cs.drop s) h k (by simp [markerChars]; omega)
  have : (cs.drop s).getD k nulChar = cs.getD (s + k) nulChar := by
    simp only [List.getD, List.get?_drop]
  simpa [charAtD, this] using hd

theorem isPrefixList_take (p l : List Char) (n : Nat) (h : isPrefixList p l = true)
    (hn : p.length ≤ n) : isPrefixList p (l.take n) = true := by
  induction p generalizing l n with
  | nil => simp [isPrefixList]
  | cons c cs ih =>
    cases l with
    | nil => simp [isPrefixList] at h
    | cons x xs =>
      simp only [isPrefixList, Bool.and_eq_true, decide_eq_true_eq] at h
      cases n with
      | zero => simp only [List.length_cons] at hn; omega
      | succ n =>
        simp only [List.take_succ_cons, isPrefixList, Bool.and_eq_true, decide_eq_true_eq]
        refine ⟨h.1, ih xs n h.2 ?_⟩
        simp only [List.length_cons] at hn
        omega

/-- The complete characterization of the call locator used by the claims. -/
theorem findNextDCallStart_bounds (cs : List Char) (i s : Nat)
    (h : findNextDCallStart cs i = some s) :
    i ≤ s ∧ s < cs.length ∧ startsAt cs s markerChars = true := by
  have hl := findNextDCallStart_eq_loop cs i (some s) h
  obtain ⟨st', _, hr, hfound, hle⟩ := fndLoopF_sound cs (cs.length + 1) initScan i s hl
  exact ⟨hle, hr, (stepFind_found cs st' s hfound).2.2⟩

/-! ## Lemmas about the balanced-extent matcher -/

theorem parenLoopF_stable (cs : List Char) :
    ∀ f g : Nat, ∀ st : PSt, ∀ i : Nat, cs.length - i < f → cs.length - i < g →
      parenLoopF cs f st i = parenLoopF cs g st i := by
  intro f
  induction f with
  | zero => omega
  | succ f ih =>
    intro g st i hf hg
    match g, hg with
    | g + 1, _ =>
      simp only [parenLoopF]
      by_cases hi : i < cs.length
      · simp only [hi, if_true]
        cases hstep : stepParen cs st i with
        | found => rfl
        | cont st' i' =>
          have hlt := stepParen_cont_lt cs st st' i i' hstep
          exact ih g st' i' (by omega) (by omega)
      · simp [hi]

theorem parenLoopF_isSome (cs : List Char) :
    ∀ f : Nat, ∀ st : PSt, ∀ i : Nat, cs.length - i < f → (parenLoopF cs f st i).isSome := by
  intro f
  induction f with
  | zero => omega
  | succ f ih =>
    intro st i hf
    simp only [parenLoopF]
    by_cases hi : i < cs.length
    · simp only [hi, if_true]
      cases hstep : stepParen cs st i with
      | found => rfl
      | cont st' i' =>
        have hlt := stepParen_cont_lt cs st st' i i' hstep
        exact ih st' i' (by omega)
    · simp [hi]

theorem findMatchingParen_eq_loop (cs : List Char) (i : Nat) (r : Option Nat)
    (h : findMatchingParen cs i = r) :
    parenLoopF cs (cs.length + 1) ⟨initScan, 0⟩ i = some r := by
  unfold findMatchingParen at h
  cases hl : parenLoopF cs (cs.length + 1) ⟨initScan, 0⟩ i with
  | none =>
    have := parenLoopF_isSome cs (cs.length + 1) ⟨initScan, 0⟩ i (by omega)
    simp [hl] at this
  | some x => simp [hl] at h; simp [h]

theorem parenLoopF_some_bounds (cs : List Char) :
    ∀ f : Nat, ∀ st : PSt, ∀ i r : Nat, parenLoopF cs f st i = some (some r) →
      i ≤ r ∧ r < cs.length := by
  intro f
  induction f with
  | zero => intro st i r h; simp [parenLoopF] at h
  | succ f ih =>
    intro st i r h
    simp only [parenLoopF] at h
    by_cases hi : i < cs.length
    · simp only [hi, if_true] at h
      cases hstep : stepParen cs st i with
      | found =>
        simp only [hstep] at h
        obtain rfl : i = r := by simpa using h
        exact ⟨le_refl i, hi⟩
      | cont st1 i1 =>
        simp only [hstep] at h
        obtain ⟨h1, h2⟩ := ih st1 i1 r h
        have hlt := stepParen_cont_lt cs st st1 i i1 hstep
        exact ⟨by omega, h2⟩
    · simp [hi] at h

theorem findMatchingParen_bounds (cs : List Char) (i c : Nat)
    (h : findMatchingParen cs i = some c) : i ≤ c ∧ c < cs.length := by
  exact parenLoopF_some_bounds cs (cs.length + 1) ⟨initScan, 0⟩ i c
    (findMatchingParen_eq_loop cs i (some c) h)

/-! ## Lemmas about the extractor -/

theorem charAtD_lt_of_ne_nul (cs : List Char) (j : Nat) (h : charAtD cs j ≠ nulChar) :
    j < cs.length := by
  by_contra hj
  apply h
  have hlen : cs.length ≤ j := Nat.le_of_not_lt hj
  simp [charAtD, List.getD, List.getElem?_eq_none hlen]

theorem skipWsF_spec (cs : List Char) :
    ∀ f e : Nat, cs.length - e ≤ f →
      e ≤ skipWsF cs f e ∧ (e ≤ cs.length → skipWsF cs f e ≤ cs.length) ∧
        (∀ j : Nat, e ≤ j → j < skipWsF cs f e → isSpaceJS (charAtD cs j) = true) ∧
        (skipWsF cs f e < cs.length → isSpaceJS (charAtD cs (skipWsF cs f e)) = false) := by
  intro f
  induction f with
  | zero =>
    intro e hf
    have he : cs.length ≤ e := by omega
    refine ⟨le_refl e, fun h => h, fun j h1 h2 => by simp [skipWsF] at h2; omega, ?_⟩
    intro h
    simp [skipWsF] at h
    omega
  | succ f ih =>
    intro e hf
    simp only [skipWsF]
    by_cases hc : e < cs.length ∧ isSpaceJS (charAtD cs e) = true
    · simp only [hc, and_self, if_true]
      obtain ⟨ih1, ih2, ih3, ih4⟩ := ih (e + 1) (by omega)
      refine ⟨by omega, fun _ => ih2 (by omega), ?_, ih4⟩
      intro j h1 h2
      rcases Nat.eq_or_lt_of_le h1 with rfl | hgt
      · exact hc.2
      · exact ih3 j (by omega) h2
    · have : ¬ (e < cs.length ∧ isSpaceJS (charAtD cs e) = true) := hc
      simp only [this, if_false]
      refine ⟨le_refl e, fun h => h, fun j h1 h2 => by omega, ?_⟩
      intro h
      by_cases hs : isSpaceJS (charAtD cs e) = true
      · exact absurd ⟨h, hs⟩ hc
      · simpa using hs

theorem skipWs_spec (cs : List Char) (e : Nat) :
    e ≤ skipWs cs e ∧ (e ≤ cs.length → skipWs cs e ≤ cs.length) ∧
      (∀ j : Nat, e ≤ j → j < skipWs cs e → isSpaceJS (charAtD cs j) = true) ∧
      (skipWs cs e < cs.length → isSpaceJS (charAtD cs (skipWs cs e)) = false) :=
  skipWsF_spec cs cs.length e (by omega)

theorem endOfSpan_bounds (cs : List Char) (c : Nat) (hc : c < cs.length) :
    c + 1 ≤ endOfSpan cs c ∧ endOfSpan cs c ≤ cs.length := by
  obtain ⟨h1, h2, _, _⟩ := skipWs_spec cs (c + 1)
  unfold endOfSpan
  by_cases hch : charAtD cs (skipWs cs (c + 1)) = ';'
  · have hlt : skipWs cs (c + 1) < cs.length := by
      apply charAtD_lt_of_ne_nul
      rw [hch]
      decide
    simp only [hch, if_true]
    constructor <;> omega
  · simp only [hch, if_false]
    exact ⟨h1, h2 (by omega)⟩

/-- Unfolding equations of the extraction loop. -/
theorem extractSpansF_stop (cs : List Char) (f i : Nat) (hi : ¬ i < cs.length) :
    extractSpansF cs (f + 1) i = [] := by
  simp [extractSpansF, hi]

theorem extractSpansF_none (cs : List Char) (f i : Nat) (hi : i < cs.length)
    (hfind : findNextDCallStart cs i = none) : extractSpansF cs (f + 1) i = [] := by
  simp [extractSpansF, hi, hfind]

theorem extractSpansF_fail (cs : List Char) (f i s : Nat) (hi : i < cs.length)
    (hfind : findNextDCallStart cs i = some s)
    (hparen : findMatchingParen cs (s + 3) = none) :
    extractSpansF cs (f + 1) i = extractSpansF cs f (s + 4) := by
  simp [extractSpansF, hi, hfind, hparen]

theorem extractSpansF_ok (cs : List Char) (f i s c : Nat) (hi : i < cs.length)
    (hfind : findNextDCallStart cs i = some s)
    (hparen : findMatchingParen cs (s + 3) = some c) :
    extractSpansF cs (f + 1) i =
      (s, endOfSpan cs c) :: extractSpansF cs f (endOfSpan cs c) := by
  simp [extractSpansF, hi, hfind, hparen]

/-- Per-span invariants of the extraction loop and source-ordering of the
spans (any fuel). -/
theorem extractSpansF_inv (cs : List Char) :
    ∀ f i : Nat,
      ((∀ p ∈ extractSpansF cs f i,
          i ≤ p.1 ∧ startsAt cs p.1 markerChars = true ∧ p.1 + 4 ≤ p.2 ∧ p.2 ≤ cs.length ∧
            ∃ c : Nat, findMatchingParen cs (p.1 + 3) = some c ∧ p.1 + 3 ≤ c ∧ c < cs.length ∧
              p.2 = endOfSpan cs c) ∧
        List.Chain' (fun a b : Nat × Nat => a.2 ≤ b.1) (extractSpansF cs f i)) := by
  intro f
  induction f with
  | zero => intro i; simp [extractSpansF]
  | succ f ih =>
    intro i
    by_cases hi : i < cs.length
    · cases hfind : findNextDCallStart cs i with
      | none => rw [extractSpansF_none cs f i hi hfind]; simp
      | some s =>
        obtain ⟨his, hs, hmark⟩ := findNextDCallStart_bounds cs i s hfind
        cases hparen : findMatchingParen cs (s + 3) with
        | none =>
          rw [extractSpansF_fail cs f i s hi hfind hparen]
          obtain ⟨ihm, ihc⟩ := ih (s + 4)
          refine ⟨fun p hp => ?_, ihc⟩
          obtain ⟨hp1, hp2⟩ := ihm p hp
          exact ⟨by omega, hp2⟩
        | some c =>
          rw [extractSpansF_ok cs f i s c hi hfind hparen]
          obtain ⟨hc1, hc2⟩ := findMatchingParen_bounds cs (s + 3) c hparen
          obtain ⟨he1, he2⟩ := endOfSpan_bounds cs c hc2
          obtain ⟨ihm, ihc⟩ := ih (endOfSpan cs c)
          constructor
          · intro p hp
            rcases List.mem_cons.mp hp with rfl | hmem
            · exact ⟨his, hmark, by omega, by omega, c, hparen, hc1, hc2, rfl⟩
            · obtain ⟨hp1, hp2⟩ := ihm p hmem
              exact ⟨by omega, hp2⟩
          · rw [List.chain'_cons']
            refine ⟨?_, ihc⟩
            intro y hy
            have hmem : y ∈ extractSpansF cs f (endOfSpan cs c) := List.mem_of_mem_head? hy
            exact (ihm y hmem).1
    · rw [extractSpansF_stop cs f i hi]; simp

/-- Fuel-independence of the extraction loop: any fuel above the remaining
length computes the same spans. -/
theorem extractSpansF_stable (cs : List Char) :
    ∀ f g i : Nat, cs.length - i < f → cs.length - i < g →
      extractSpansF cs f i = extractSpansF cs g i := by
  intro f
  induction f with
  | zero => omega
  | succ f ih =>
    intro g i hf hg
    match g, hg with
    | g + 1, _ =>
      by_cases hi : i < cs.length
      · cases hfind : findNextDCallStart cs i with
        | none => rw [extractSpansF_none cs f i hi hfind, extractSpansF_none cs g i hi hfind]
        | some s =>
          obtain ⟨his, hs, hmark⟩ := findNextDCallStart_bounds cs i s hfind
          cases hparen : findMatchingParen cs (s + 3) with
          | none =>
            rw [extractSpansF_fail cs f i s hi hfind hparen,
              extractSpansF_fail cs g i s hi hfind hparen]
            exact ih g (s + 4) (by omega) (by omega)
          | some c =>
            obtain ⟨hc1, hc2⟩ := findMatchingParen_bounds cs (s + 3) c hparen
            obtain ⟨he1, he2⟩ := endOfSpan_bounds cs c hc2
            rw [extractSpansF_ok cs f i s c hi hfind hparen,
              extractSpansF_ok cs g i s c hi hfind hparen,
              ih g (endOfSpan cs c) (by omega) (by omega)]
      · rw [extractSpansF_stop cs f i hi, extractSpansF_stop cs g i hi]

/-! ## Claim theorems: scanner and extractor -/

/-- C1: For every input string and every starting offset, any offset returned
by the Call Locator `findNextDCallStart` is a `__d(` occurrence that was
reached with the lexical state machine in Code mode — so a marker inside a
single- or double-quoted string, a template literal (outside its `${...}`
interpolation code, which scans in Code mode), a regex literal, a line
comment or a block comment is never reported. -/
theorem C1_call_locator_reports_only_code_marker (cs : List Char) (fromIdx r : Nat)
    (h : findNextDCallStart cs fromIdx = some r) :
    startsAt cs r markerChars = true ∧
      ∃ st : ScanSt, ScanReach cs (initScan, fromIdx) (st, r) ∧ st.mode = Mode.code ∧
        stepFind cs st r = FindOut.found := by
  have hl := findNextDCallStart_eq_loop cs fromIdx (some r) h
  obtain ⟨st', hreach, hr, hfound, hle⟩ :=
    fndLoopF_sound cs (cs.length + 1) initScan fromIdx r hl
  have hf := stepFind_found cs st' r hfound
  exact ⟨hf.2.2, st', hreach, hf.1, hfound⟩

/-- Witness for C1 on the input `"__d(" __d(1)` (a marker inside a
double-quoted string followed by a real one): the reported offset 7 is the
second occurrence, reached in Code mode. -/
theorem C1_call_locator_reports_only_code_marker_witness :
    startsAt ("\"__d(\" __d(1)".toList) 7 markerChars = true ∧
      ∃ st : ScanSt, ScanReach ("\"__d(\" __d(1)".toList) (initScan, 0) (st, 7) ∧
        st.mode = Mode.code ∧ stepFind ("\"__d(\" __d(1)".toList) st 7 = FindOut.found :=
  C1_call_locator_reports_only_code_marker ("\"__d(\" __d(1)".toList) 0 7 (by decide)

/-- C2: `extractDCalls` yields its spans in source order and pairwise
non-overlapping (`start_1 ≤ end_1 ≤ start_2 ≤ end_2 ≤ ...`), each returned
string is character for character the slice of the input at its span, and
each span begins with the `__d(` marker. -/
theorem C2_extraction_ordered_lossless (cs : List Char) :
    extractDCalls cs = (extractSpansFrom cs 0).map (fun p => sliceList cs p.1 p.2) ∧
      List.Chain' (fun a b : Nat × Nat => a.2 ≤ b.1) (extractSpansFrom cs 0) ∧
      ∀ p ∈ extractSpansFrom cs 0,
        p.1 + 4 ≤ p.2 ∧ p.2 ≤ cs.length ∧ startsAt cs p.1 markerChars = true ∧
          isPrefixList markerChars (sliceList cs p.1 p.2) = true := by
  refine ⟨rfl, (extractSpansF_inv cs (cs.length + 1) 0).2, ?_⟩
  intro p hp
  obtain ⟨_, hmark, h4, hlen, _⟩ := (extractSpansF_inv cs (cs.length + 1) 0).1 p hp
  refine ⟨h4, hlen, hmark, ?_⟩
  have hm' : isPrefixList markerChars (cs.drop p.1) = true := hmark
  have := isPrefixList_take markerChars (cs.drop p.1) (p.2 - p.1) hm' (by simp [markerChars]; omega)
  exact this

/-- Witness for C2 on a two-call bundle: the second span starts after the
first ends and both slices begin with the marker. -/
theorem C2_extraction_ordered_lossless_witness :
    (0, 11) ∈ extractSpansFrom ("__d(\"A\",1);x__d(\"B\",2);".toList) 0 ∧
      ((0 : Nat), (11 : Nat)).1 + 4 ≤ (0, 11).2 ∧ (0, 11).2 ≤ ("__d(\"A\",1);x__d(\"B\",2);".toList).length ∧
      startsAt ("__d(\"A\",1);x__d(\"B\",2);".toList) (0, 11).1 markerChars = true ∧
      isPrefixList markerChars
        (sliceList ("__d(\"A\",1);x__d(\"B\",2);".toList) (0, 11).1 (0, 11).2) = true :=
  ⟨by decide,
    (C2_extraction_ordered_lossless ("__d(\"A\",1);x__d(\"B\",2);".toList)).2.2 (0, 11) (by decide)⟩

/-- C4: every extracted span consists of the marker, the argument list through
the matching close parenthesis found by the string/template/regex/comment
aware `findMatchingParen`, the run of trailing whitespace after it, and one
trailing `;` when immediately present — nothing more and nothing less. -/
theorem C4_span_extent_exact (cs : List Char) (s e : Nat)
    (hmem : (s, e) ∈ extractSpansFrom cs 0) :
    startsAt cs s markerChars = true ∧ charAtD cs (s + 3) = '(' ∧
      ∃ c : Nat, findMatchingParen cs (s + 3) = some c ∧ s + 3 ≤ c ∧ c < cs.length ∧
        (∀ j : Nat, c + 1 ≤ j → j < skipWs cs (c + 1) → isSpaceJS (charAtD cs j) = true) ∧
        (skipWs cs (c + 1) < cs.length → isSpaceJS (charAtD cs (skipWs cs (c + 1))) = false) ∧
        e = (if charAtD cs (skipWs cs (c + 1)) = ';' then skipWs cs (c + 1) + 1
          else skipWs cs (c + 1)) := by
  obtain ⟨_, hmark, _, _, c, hparen, hc1, hc2, he⟩ :=
    (extractSpansF_inv cs (cs.length + 1) 0).1 (s, e) hmem
  obtain ⟨_, _, hws1, hws2⟩ := skipWs_spec cs (c + 1)
  have hchar := startsAt_charAt cs s hmark 3 (by omega)
  have he' : e = endOfSpan cs c := he
  refine ⟨hmark, by simpa [markerChars] using hchar, c, hparen, hc1, hc2, hws1, hws2, ?_⟩
  rw [he']
  rfl

/-- Witness for C4 on `__d(1) ;x`: the span runs to offset 8, covering the
close parenthesis at 5, one space, and the `;`. -/
theorem C4_span_extent_exact_witness :
    startsAt ("__d(1) ;x".toList) 0 markerChars = true ∧
      charAtD ("__d(1) ;x".toList) 3 = '(' ∧
      ∃ c : Nat, findMatchingParen ("__d(1) ;x".toList) 3 = some c ∧ 3 ≤ c ∧
        c < ("__d(1) ;x".toList).length ∧
        (∀ j : Nat, c + 1 ≤ j → j < skipWs ("__d(1) ;x".toList) (c + 1) →
          isSpaceJS (charAtD ("__d(1) ;x".toList) j) = true) ∧
        (skipWs ("__d(1) ;x".toList) (c + 1) < ("__d(1) ;x".toList).length →
          isSpaceJS (charAtD ("__d(1) ;x".toList) (skipWs ("__d(1) ;x".toList) (c + 1))) = false) ∧
        8 = (if charAtD ("__d(1) ;x".toList) (skipWs ("__d(1) ;x".toList) (c + 1)) = ';'
          then skipWs ("__d(1) ;x".toList) (c + 1) + 1 else skipWs ("__d(1) ;x".toList) (c + 1)) :=
  C4_span_extent_exact ("__d(1) ;x".toList) 0 8 (by decide)

/-- C8: when `findMatchingParen` reports an unterminated call, the extractor
skips just that call — it resumes scanning immediately past the `__d(` token
and its result is exactly the extraction of the rest, so later calls are
still extracted and the run does not abort.  (The accompanying warning is
host console I/O with no bearing on the computation.) -/
theorem C8_unterminated_call_skips_and_continues (cs : List Char) (i s : Nat)
    (hi : i < cs.length) (hfind : findNextDCallStart cs i = some s)
    (hparen : findMatchingParen cs (s + 3) = none) :
    extractSpansFrom cs i = extractSpansFrom cs (s + 4) := by
  have hb := findNextDCallStart_bounds cs i s hfind
  unfold extractSpansFrom
  have h1 : extractSpansF cs (cs.length + 1) i = extractSpansF cs cs.length (s + 4) :=
    extractSpansF_fail cs cs.length i s hi hfind hparen
  rw [h1]
  exact extractSpansF_stable cs cs.length (cs.length + 1) (s + 4) (by omega) (by omega)

/-- Witness for C8 on `__d( __d("X",1);` — the first call is unterminated,
and extraction from the recovery offset still finds the second call. -/
theorem C8_unterminated_call_skips_and_continues_witness :
    extractSpansFrom ("__d( __d(\"X\",1);".toList) 0 =
      extractSpansFrom ("__d( __d(\"X\",1);".toList) 4 :=
  C8_unterminated_call_skips_and_continues ("__d( __d(\"X\",1);".toList) 0 0
    (by decide) (by decide) (by decide)

/-- C10: extraction terminates on every finite input.  Both character scans
advance at least one position per step, the extraction cursor strictly
increases through every loop iteration (the located marker is at or after the
cursor, and both the recovery offset and the span end lie strictly beyond
it), and consequently every loop is fuel-independent above the remaining
input length — extraction is a total function of the input. -/
theorem C10_extraction_terminates (cs : List Char) :
    (∀ (st st' : ScanSt) (i i' : Nat), stepFind cs st i = FindOut.cont st' i' → i < i') ∧
      (∀ (st st' : PSt) (i i' : Nat), stepParen cs st i = ParenOut.cont st' i' → i < i') ∧
      (∀ i s : Nat, findNextDCallStart cs i = some s → i ≤ s ∧ s < cs.length) ∧
      (∀ (s c : Nat), findMatchingParen cs (s + 3) = some c → s + 3 ≤ c ∧ c < cs.length) ∧
      (∀ (f : Nat) (st : ScanSt) (i : Nat), cs.length - i < f →
        fndLoopF cs f st i = fndLoopF cs (cs.length + 1) st i) ∧
      (∀ (f : Nat) (st : PSt) (i : Nat), cs.length - i < f →
        parenLoopF cs f st i = parenLoopF cs (cs.length + 1) st i) ∧
      (∀ f i : Nat, cs.length - i < f → extractSpansF cs f i = extractSpansFrom cs i) := by
  refine ⟨fun st st' i i' h => (stepFind_cont_lt cs st st' i i' h).1,
    fun st st' i i' h => (stepParen_cont_lt cs st st' i i' h).1,
    fun i s h => ?_, fun s c h => findMatchingParen_bounds cs (s + 3) c h,
    fun f st i hf => fndLoopF_stable cs f (cs.length + 1) st i hf (by omega),
    fun f st i hf => parenLoopF_stable cs f (cs.length + 1) st i hf (by omega),
    fun f i hf => extractSpansF_stable cs f (cs.length + 1) i hf (by omega)⟩
  obtain ⟨h1, h2, _⟩ := findNextDCallStart_bounds cs i s h
  exact ⟨h1, h2⟩

/-- Witness for C10: on a concrete bundle, a larger-than-needed fuel computes
the same spans as the canonical fuel. -/
theorem C10_extraction_terminates_witness :
    extractSpansF ("__d(\"A\",1); __d(\"B\",2)".toList) 99 0 =
      extractSpansFrom ("__d(\"A\",1); __d(\"B\",2)".toList) 0 :=
  (C10_extraction_terminates ("__d(\"A\",1); __d(\"B\",2)".toList)).2.2.2.2.2.2 99 0 (by decide)

/-! ## Lemmas about naming and disambiguation -/

/-- Little-endian decimal value of a digit list. -/
def valLE : List Char → Nat
  | [] => 0
  | c :: r => (c.toNat - 48) + 10 * valLE r

theorem digit_toNat (d : Nat) (hd : d < 10) : (Char.ofNat (48 + d)).toNat = 48 + d := by
  interval_cases d <;> decide

theorem natCharsAux_val (f : Nat) : ∀ n : Nat, n ≤ f → valLE (natCharsAux f n) = n := by
  induction f with
  | zero => intro n hn; interval_cases n; simp [natCharsAux, valLE]
  | succ f ih =>
    intro n hn
    by_cases hz : n = 0
    · simp [natCharsAux, hz, valLE]
    · simp only [natCharsAux, hz, if_false, valLE]
      rw [digit_toNat (n % 10) (Nat.mod_lt n (by omega)), ih (n / 10) (by omega)]
      omega

theorem valLE_rev (n : Nat) : valLE (natChars n).reverse = n := by
  unfold natChars
  by_cases hz : n = 0
  · subst hz; decide
  · rw [if_neg hz, List.reverse_reverse]
    exact natCharsAux_val n n (le_refl n)

theorem natChars_inj (m n : Nat) (h : natChars m = natChars n) : m = n := by
  have hc := congrArg (fun l : List Char => valLE l.reverse) h
  simpa [valLE_rev] using hc

theorem natChars_ne_nil (n : Nat) : natChars n ≠ [] := by
  intro h
  have h0 : n = 0 := by
    have hv := valLE_rev n
    rw [h] at hv
    simpa [valLE] using hv.symm
  rw [h0] at h
  simp [natChars] at h

theorem alookup_aset (m : List (List Char × Nat)) (k : List Char) (v : Nat) (k' : List Char) :
    alookup (aset m k v) k' = if k' = k then some v else alookup m k' := by
  induction m with
  | nil =>
    simp only [aset, alookup]
    by_cases h : k = k'
    · subst h; simp
    · have h' : ¬ k' = k := fun e => h e.symm
      simp [h, h']
  | cons e rest ih =>
    obtain ⟨ek, ev⟩ := e
    simp only [aset]
    by_cases h1 : ek = k
    · subst h1
      simp only [if_pos rfl, alookup]
      by_cases h2 : ek = k'
      · subst h2; simp
      · have h2' : ¬ k' = ek := fun e => h2 e.symm
        simp [h2, h2']
    · rw [if_neg h1]
      simp only [alookup, ih]
      by_cases h2 : ek = k'
      · have hkk : ¬ k' = k := fun e => h1 (h2.trans e)
        simp [h2, hkk]
      · simp [h2]

theorem countOcc_append (b : List Char) (l1 l2 : List (List Char)) :
    countOcc b (l1 ++ l2) = countOcc b l1 + countOcc b l2 := by
  simp [countOcc, List.filter_append]

theorem countOcc_singleton (b x : List Char) :
    countOcc b [x] = if x = b then 1 else 0 := by
  by_cases h : x = b <;> simp [countOcc, h]

/-- The export loop computes exactly the disambiguated names of the base-name
sequence, and passes the raw call text through as content, in order. -/
theorem buildLoop_names (calls : List (List Char)) :
    ∀ (count : Nat) (used : List (List Char × Nat)) (prev : List (List Char)),
      (∀ b : List Char, (alookup used b).getD 0 = countOcc b prev) →
      (buildLoop false [] true count used calls).map (fun f => f.fileName) =
          disambAux prev (basesAux count calls) ∧
        (buildLoop false [] true count used calls).map (fun f => f.content) = calls := by
  induction calls with
  | nil => intro count used prev hinv; simp [buildLoop, basesAux, disambAux]
  | cons d rest ih =>
    intro count used prev hinv
    simp only [buildLoop, basesAux, disambAux, List.map_cons, false_and, if_false, if_true]
    set b := (baseOfStep count d).1 with hb
    have hseen : (alookup used b).getD 0 = countOcc b prev := hinv b
    have hinv' : ∀ b' : List Char,
        (alookup (aset used b ((alookup used b).getD 0 + 1)) b').getD 0 =
          countOcc b' (prev ++ [b]) := by
      intro b'
      rw [alookup_aset, countOcc_append, countOcc_singleton]
      by_cases h : b' = b
      · subst h
        simp [hseen]
      · have hne : ¬ b = b' := fun hx => h hx.symm
        simp [h, hne, hinv b']
    obtain ⟨ih1, ih2⟩ := ih (baseOfStep count d).2 (aset used b ((alookup used b).getD 0 + 1))
      (prev ++ [b]) hinv'
    constructor
    · rw [List.cons.injEq]
      refine ⟨?_, ih1⟩
      rw [hseen.symm]
      unfold renderName
      by_cases h0 : (alookup used b).getD 0 = 0
      · simp [h0]
      · simp [h0, List.append_assoc]
    · rw [List.cons.injEq]
      exact ⟨rfl, ih2⟩

theorem disambAux_get? (bases : List (List Char)) :
    ∀ (prev : List (List Char)) (j : Nat) (b : List Char), bases.get? j = some b →
      (disambAux prev bases).get? j = some (renderName b (countOcc b (prev ++ bases.take j))) := by
  induction bases with
  | nil => intro prev j b h; simp at h
  | cons a rest ih =>
    intro prev j b h
    cases j with
    | zero =>
      obtain rfl : a = b := by simpa using h
      simp [disambAux]
    | succ j =>
      simp only [List.get?_cons_succ] at h
      simp only [disambAux, List.get?_cons_succ, List.take_succ_cons]
      rw [ih (prev ++ [a]) j b h]
      simp [List.append_assoc]

theorem countOcc_take_lt (l : List (List Char)) (m n : Nat) (b : List Char)
    (hmn : m < n) (hm : l.get? m = some b) :
    countOcc b (l.take m) < countOcc b (l.take n) := by
  have hm' : l[m]? = some b := by rw [← List.get?_eq_getElem?]; exact hm
  have hsucc : countOcc b (l.take (m + 1)) = countOcc b (l.take m) + 1 := by
    rw [List.take_succ, countOcc_append, hm']
    simp [countOcc]
  have hle : countOcc b (l.take (m + 1)) ≤ countOcc b (l.take n) := by
    have hsplit : l.take n = l.take (m + 1) ++ (l.drop (m + 1)).take (n - (m + 1)) := by
      rw [← List.take_add]
      congr 1
      omega
    rw [hsplit, countOcc_append]
    omega
  omega

theorem renderName_inj_ne (b : List Char) (k k' : Nat) (hk : k ≠ k') :
    renderName b k ≠ renderName b k' := by
  intro heq
  unfold renderName at heq
  have hnn : ∀ j : Nat, (natChars j).length ≠ 0 :=
    fun j hl => natChars_ne_nil j (List.length_eq_zero.mp hl)
  by_cases h0 : k = 0 <;> by_cases h0' : k' = 0
  · exact hk (h0.trans h0'.symm)
  · rw [if_pos h0, if_neg h0'] at heq
    have hle := congrArg List.length heq
    simp only [List.length_append, List.length_cons] at hle
    have := hnn (k' + 1)
    omega
  · rw [if_neg h0, if_pos h0'] at heq
    have hle := congrArg List.length heq
    simp only [List.length_append, List.length_cons] at hle
    have := hnn (k + 1)
    omega
  · rw [if_neg h0, if_neg h0'] at heq
    have hcancel := List.append_cancel_left heq
    have htail : natChars (k + 1) ++ jsExt = natChars (k' + 1) ++ jsExt := by
      simpa using hcancel
    have hlen : (natChars (k + 1)).length = (natChars (k' + 1)).length := by
      have hl2 := congrArg List.length htail
      simp only [List.length_append] at hl2
      omega
    obtain ⟨heq2, _⟩ := List.append_inj htail hlen
    have := natChars_inj (k + 1) (k' + 1) heq2
    omega

/-! ## Claim theorems: disambiguation (C3) -/

/-- A bundle whose declared names are `A`, `A_2`, `A`: the second occurrence
of base `A` is disambiguated to `A_2`, which collides with the declared name
`A_2`. -/
def cexC3 : List Char := "__d(\"A\",1);__d(\"A_2\",1);__d(\"A\",1);".toList

/-- C3 counterexample: with disambiguation enabled, the relative output paths
of `buildExportFiles` are NOT pairwise distinct — the bundle declaring
`A`, `A_2`, `A` yields `A.js`, `A_2.js`, `A_2.js`. -/
theorem C3_unique_paths_counterexample :
    (buildExportFiles cexC3 true false none).map (fun f => f.fileName) =
        ["A.js".toList, "A_2.js".toList, "A_2.js".toList] ∧
      ¬ ((buildExportFiles cexC3 true false none).map (fun f => f.fileName)).Nodup := by
  constructor
  · decide
  · decide

/-- C3 (amended): with disambiguation enabled (and no prefix merging), the
file names of `buildExportFiles` are exactly the base-name sequence of the
extracted calls with a per-base occurrence suffix — the first occurrence of a
base keeps the unsuffixed name `b.js`, the occurrence with `k` earlier
occurrences of the same base becomes `b_<k+1>.js` — contents appear in call
order unchanged, and any two occurrences of the *same* base get distinct
paths.  (Paths of different bases may still collide, as the counterexample
shows: base `A_2` versus the suffixed second `A`.) -/
theorem C3_disambiguation_per_base (cs : List Char) :
    (buildExportFiles cs true false none).map (fun f => f.fileName) =
        disambNames (basesOf (extractDCalls cs)) ∧
      (buildExportFiles cs true false none).map (fun f => f.content) = extractDCalls cs ∧
      ∀ (m n : Nat) (b : List Char), m < n →
        (basesOf (extractDCalls cs)).get? m = some b →
        (basesOf (extractDCalls cs)).get? n = some b →
        (disambNames (basesOf (extractDCalls cs))).get? m ≠
          (disambNames (basesOf (extractDCalls cs))).get? n := by
  have hmain : ∀ calls : List (List Char),
      (buildLoop false [] true 0 [] calls).map (fun f => f.fileName) =
          disambNames (basesOf calls) ∧
        (buildLoop false [] true 0 [] calls).map (fun f => f.content) = calls := by
    intro calls
    exact buildLoop_names calls 0 [] [] (fun b => by simp [alookup, countOcc])
  constructor
  · by_cases hnil : extractDCalls cs = []
    · simp [buildExportFiles, hnil, disambNames, basesOf, basesAux, disambAux]
    · unfold buildExportFiles
      rw [if_neg hnil]
      exact (hmain (extractDCalls cs)).1
  constructor
  · by_cases hnil : extractDCalls cs = []
    · simp [buildExportFiles, hnil]
    · unfold buildExportFiles
      rw [if_neg hnil]
      exact (hmain (extractDCalls cs)).2
  · intro m n b hmn hm hn
    unfold disambNames
    rw [disambAux_get? (basesOf (extractDCalls cs)) [] m b hm,
      disambAux_get? (basesOf (extractDCalls cs)) [] n b hn]
    intro hsome
    have heq := Option.some.inj hsome
    simp only [List.nil_append] at heq
    exact renderName_inj_ne b _ _
      (by
        have := countOcc_take_lt (basesOf (extractDCalls cs)) m n b hmn hm
        omega) heq

/-- Witness for the amended C3 on the counterexample bundle: the first and
third calls share base `A` and still receive distinct paths. -/
theorem C3_disambiguation_per_base_witness :
    (disambNames (basesOf (extractDCalls cexC3))).get? 0 ≠
      (disambNames (basesOf (extractDCalls cexC3))).get? 2 :=
  (C3_disambiguation_per_base cexC3).2.2 0 2 ("A".toList) (by omega) (by decide) (by decide)

/-! ## Lemmas about prefix clustering -/

theorem longestCommonPrefixOf_isPrefixList (a b : List Char) :
    isPrefixList (longestCommonPrefixOf a b) a = true ∧
      isPrefixList (longestCommonPrefixOf a b) b = true := by
  induction a generalizing b with
  | nil => cases b <;> simp [longestCommonPrefixOf, isPrefixList]
  | cons x xs ih =>
    cases b with
    | nil => simp [longestCommonPrefixOf, isPrefixList]
    | cons y ys =>
      simp only [longestCommonPrefixOf]
      by_cases h : x = y
      · subst h
        rw [if_pos rfl]
        constructor
        · simp [isPrefixList, (ih ys).1]
        · simp [isPrefixList, (ih ys).2]
      · simp [h, isPrefixList]

theorem mem_insertSorted {α : Type} (lt : α → α → Bool) (x y : α) (l : List α) :
    y ∈ insertSorted lt x l ↔ y = x ∨ y ∈ l := by
  induction l with
  | nil => simp [insertSorted]
  | cons z zs ih =>
    simp only [insertSorted]
    by_cases h : lt x z = true
    · simp [h]
    · rw [if_neg h]
      simp only [List.mem_cons, ih]
      tauto

theorem mem_sortByBool {α : Type} (lt : α → α → Bool) (l : List α) (y : α) :
    y ∈ sortByBool lt l ↔ y ∈ l := by
  have hgen : ∀ (l acc : List α), y ∈ l.foldl (fun acc x => insertSorted lt x acc) acc ↔
      y ∈ acc ∨ y ∈ l := by
    intro l
    induction l with
    | nil => simp
    | cons z zs ih =>
      intro acc
      simp only [List.foldl_cons, ih, mem_insertSorted, List.mem_cons]
      tauto
  simpa [sortByBool] using hgen l []

theorem mem_dedupAdd (l : List (List Char)) (x y : List Char) :
    y ∈ dedupAdd l x ↔ y ∈ l ∨ y = x := by
  unfold dedupAdd
  by_cases h : x ∈ l
  · simp only [h, if_true]
    constructor
    · exact Or.inl
    · rintro (hy | rfl)
      · exact hy
      · exact h
  · simp [h]

theorem nodup_dedupAdd (l : List (List Char)) (x : List Char) (h : l.Nodup) :
    (dedupAdd l x).Nodup := by
  unfold dedupAdd
  by_cases hx : x ∈ l
  · simpa [hx]
  · simp [hx, List.nodup_append, h]

/-- Invariant of the `prefixMembers` map: every entry's key is long enough
and every member is an input name whose normalized form extends the key. -/
def PMInv (names : List (List Char)) (minLen : Nat) (pm : PM) : Prop :=
  ∀ e ∈ pm, minLen ≤ e.1.length ∧ e.2.Nodup ∧
    ∀ m ∈ e.2, m ∈ names ∧ isPrefixList e.1 (normalizeForMerge m) = true

theorem pmAdd_inv (names : List (List Char)) (minLen : Nat) (pm : PM)
    (key r1 r2 : List Char) (hpm : PMInv names minLen pm) (hkey : minLen ≤ key.length)
    (h1 : r1 ∈ names ∧ isPrefixList key (normalizeForMerge r1) = true)
    (h2 : r2 ∈ names ∧ isPrefixList key (normalizeForMerge r2) = true) :
    PMInv names minLen (pmAdd pm key r1 r2) := by
  induction pm with
  | nil =>
    intro e he
    simp only [pmAdd, List.mem_singleton] at he
    subst he
    refine ⟨hkey, nodup_dedupAdd _ _ (nodup_dedupAdd _ _ (List.nodup_nil)), ?_⟩
    intro m hm
    rcases (mem_dedupAdd _ _ _).mp hm with hm1 | rfl
    · rcases (mem_dedupAdd _ _ _).mp hm1 with hm2 | rfl
      · simp at hm2
      · exact h1
    · exact h2
  | cons e rest ih =>
    obtain ⟨ek, ems⟩ := e
    have hrest : PMInv names minLen rest := fun e he => hpm e (List.mem_cons_of_mem _ he)
    have hhead := hpm (ek, ems) (List.mem_cons_self _ _)
    simp only [pmAdd]
    by_cases hk : ek = key
    · subst hk
      simp only [if_pos rfl]
      intro e he
      rcases List.mem_cons.mp he with rfl | hmem
      · refine ⟨hhead.1, nodup_dedupAdd _ _ (nodup_dedupAdd _ _ hhead.2.1), ?_⟩
        intro m hm
        rcases (mem_dedupAdd _ _ _).mp hm with hm1 | rfl
        · rcases (mem_dedupAdd _ _ _).mp hm1 with hm2 | rfl
          · exact hhead.2.2 m hm2
          · exact h1
        · exact h2
      · exact hrest e hmem
    · simp only [hk, if_false]
      intro e he
      rcases List.mem_cons.mp he with rfl | hmem
      · exact hhead
      · exact ih hrest e hmem

/-- An item drawn from the clustering input list. -/
def GoodItem (names : List (List Char)) (it : MP) : Prop :=
  it.raw ∈ names ∧ it.norm = normalizeForMerge it.raw

theorem innerPairs_inv (names : List (List Char)) (minLen : Nat) (x : MP)
    (hx : GoodItem names x) :
    ∀ (ys : List MP) (pm : PM), (∀ y ∈ ys, GoodItem names y) → PMInv names minLen pm →
      PMInv names minLen (innerPairs x minLen ys pm) := by
  intro ys
  induction ys with
  | nil => intro pm _ hpm; simpa [innerPairs] using hpm
  | cons y ys ih =>
    intro pm hys hpm
    simp only [innerPairs]
    by_cases hl : (longestCommonPrefixOf x.norm y.norm).length < minLen
    · simpa [hl] using hpm
    · simp only [hl, if_false]
      have hy := hys y (List.mem_cons_self _ _)
      have hlcp := longestCommonPrefixOf_isPrefixList x.norm y.norm
      refine ih _ (fun z hz => hys z (List.mem_cons_of_mem _ hz)) ?_
      exact pmAdd_inv names minLen pm _ x.raw y.raw hpm (by omega)
        ⟨hx.1, by rw [← hx.2]; exact hlcp.1⟩ ⟨hy.1, by rw [← hy.2]; exact hlcp.2⟩

theorem outerPairs_inv (names : List (List Char)) (minLen : Nat) :
    ∀ (items : List MP) (pm : PM), (∀ y ∈ items, GoodItem names y) → PMInv names minLen pm →
      PMInv names minLen (outerPairs minLen items pm) := by
  intro items
  induction items with
  | nil => intro pm _ hpm; simpa [outerPairs] using hpm
  | cons x xs ih =>
    intro pm hitems hpm
    simp only [outerPairs]
    exact ih _ (fun y hy => hitems y (List.mem_cons_of_mem _ hy))
      (innerPairs_inv names minLen x (hitems x (List.mem_cons_self _ _)) xs pm
        (fun y hy => hitems y (List.mem_cons_of_mem _ hy)) hpm)

theorem selectLoop_sub (mm : Nat) :
    ∀ (cands : PM) (covered : List (List Char)) (k : List Char),
      k ∈ selectLoop mm cands covered → ∃ ms, (k, ms) ∈ cands := by
  intro cands
  induction cands with
  | nil => intro covered k h; simp [selectLoop] at h
  | cons e rest ih =>
    obtain ⟨ek, ems⟩ := e
    intro covered k h
    simp only [selectLoop] at h
    by_cases hc : mm ≤ (ems.filter fun m => ¬ m ∈ covered).length
    · rw [if_pos hc] at h
      rcases List.mem_cons.mp h with rfl | hmem
      · exact ⟨ems, List.mem_cons_self _ _⟩
      · obtain ⟨ms, hms⟩ := ih _ k hmem
        exact ⟨ms, List.mem_cons_of_mem _ hms⟩
    · rw [if_neg hc] at h
      obtain ⟨ms, hms⟩ := ih _ k h
      exact ⟨ms, List.mem_cons_of_mem _ hms⟩

theorem two_distinct_of_nodup (l : List (List Char)) (h2 : 2 ≤ l.length) (hn : l.Nodup) :
    ∃ a b : List Char, a ∈ l ∧ b ∈ l ∧ a ≠ b := by
  match l, h2 with
  | a :: b :: rest, _ =>
    refine ⟨a, b, List.mem_cons_self _ _, List.mem_cons_of_mem _ (List.mem_cons_self _ _), ?_⟩
    intro hab
    subst hab
    simp [List.nodup_cons] at hn

/-- Every cluster selected by `computeMergePrefixes` has a normalized prefix
of at least `minPrefixLen` characters realized by at least two distinct input
names. -/
theorem computeMergePrefixes_sound (names : List (List Char)) (p : MP)
    (hp : p ∈ computeMergePrefixes names 3 2) :
    3 ≤ p.norm.length ∧
      ∃ a b : List Char, a ∈ names ∧ b ∈ names ∧ a ≠ b ∧
        isPrefixList p.norm (normalizeForMerge a) = true ∧
        isPrefixList p.norm (normalizeForMerge b) = true := by
  unfold computeMergePrefixes at hp
  by_cases hlen : names.length < 2
  · simp [hlen] at hp
  · rw [if_neg hlen] at hp
    obtain ⟨k, hk, hpk⟩ := List.mem_map.mp hp
    obtain ⟨ms, hms⟩ := selectLoop_sub 2 _ [] k hk
    have hmem := (mem_sortByBool candLt _ _).mp hms
    obtain ⟨hin, hfilter⟩ := List.mem_filter.mp hmem
    have hgood : ∀ y ∈ sortByBool (fun a b => lexLtChars a.norm b.norm)
        ((names.map fun raw => MP.mk raw (normalizeForMerge raw)).filter
          fun x => 3 ≤ x.norm.length), GoodItem names y := by
      intro y hy
      have hy' := (mem_sortByBool _ _ _).mp hy
      obtain ⟨hy2, _⟩ := List.mem_filter.mp hy'
      obtain ⟨raw, hraw, hy3⟩ := List.mem_map.mp hy2
      subst hy3
      exact ⟨hraw, rfl⟩
    have hinv := outerPairs_inv names 3 _ [] hgood (fun e he => by simp at he)
    obtain ⟨hkey, hnodup, hmems⟩ := hinv (k, ms) hin
    have hflt : 2 ≤ ms.length := by simpa using hfilter
    obtain ⟨a, b, ha, hb, hab⟩ := two_distinct_of_nodup ms hflt hnodup
    have hfa := hmems a ha
    have hfb := hmems b hb
    have hnorm : p.norm = k := by rw [← hpk]
    rw [hnorm]
    exact ⟨hkey, a, b, hfa.1, hfb.1, hab, hfa.2, hfb.2⟩

theorem bestSuffix_some (suffix : List Char) :
    ∀ (ps : List MP) (acc : Option MP) (p : MP), bestSuffix suffix ps acc = some p →
      (p ∈ ps ∧ sufMatch suffix p = true) ∨ acc = some p := by
  intro ps
  induction ps with
  | nil => intro acc p h; right; simpa [bestSuffix] using h
  | cons q rest ih =>
    intro acc p h
    by_cases hq : sufMatch suffix q = true
    · cases acc with
      | none =>
        simp only [bestSuffix, hq, if_true] at h
        rcases ih (some q) p h with ⟨hin, hm⟩ | heq
        · exact Or.inl ⟨List.mem_cons_of_mem _ hin, hm⟩
        · obtain rfl := Option.some.inj heq
          exact Or.inl ⟨List.mem_cons_self _ _, hq⟩
      | some b =>
        simp only [bestSuffix, hq, if_true] at h
        by_cases hbl : b.norm.length < q.norm.length
        · rw [if_pos hbl] at h
          rcases ih (some q) p h with ⟨hin, hm⟩ | heq
          · exact Or.inl ⟨List.mem_cons_of_mem _ hin, hm⟩
          · obtain rfl := Option.some.inj heq
            exact Or.inl ⟨List.mem_cons_self _ _, hq⟩
        · rw [if_neg hbl] at h
          rcases ih (some b) p h with ⟨hin, hm⟩ | heq
          · exact Or.inl ⟨List.mem_cons_of_mem _ hin, hm⟩
          · exact Or.inr heq
    · simp only [bestSuffix, hq, if_false] at h
      rcases ih acc p h with ⟨hin, hm⟩ | heq
      · exact Or.inl ⟨List.mem_cons_of_mem _ hin, hm⟩
      · exact Or.inr heq

theorem bestPref_some (norm : List Char) :
    ∀ (ps : List MP) (acc : Option MP) (p : MP), bestPref norm ps acc = some p →
      (p ∈ ps ∧ isPrefixList p.norm norm = true) ∨ acc = some p := by
  intro ps
  induction ps with
  | nil => intro acc p h; right; simpa [bestPref] using h
  | cons q rest ih =>
    intro acc p h
    by_cases hq : isPrefixList q.norm norm = true
    · cases acc with
      | none =>
        simp only [bestPref, hq, if_true] at h
        rcases ih (some q) p h with ⟨hin, hm⟩ | heq
        · exact Or.inl ⟨List.mem_cons_of_mem _ hin, hm⟩
        · obtain rfl := Option.some.inj heq
          exact Or.inl ⟨List.mem_cons_self _ _, hq⟩
      | some b =>
        simp only [bestPref, hq, if_true] at h
        by_cases hbl : b.norm.length < q.norm.length
        · rw [if_pos hbl] at h
          rcases ih (some q) p h with ⟨hin, hm⟩ | heq
          · exact Or.inl ⟨List.mem_cons_of_mem _ hin, hm⟩
          · obtain rfl := Option.some.inj heq
            exact Or.inl ⟨List.mem_cons_self _ _, hq⟩
        · rw [if_neg hbl] at h
          rcases ih (some b) p h with ⟨hin, hm⟩ | heq
          · exact Or.inl ⟨List.mem_cons_of_mem _ hin, hm⟩
          · exact Or.inr heq
    · simp only [bestPref, hq, if_false] at h
      rcases ih acc p h with ⟨hin, hm⟩ | heq
      · exact Or.inl ⟨List.mem_cons_of_mem _ hin, hm⟩
      · exact Or.inr heq

/-- Every directory assignment of `pickMergeDir` comes from some prefix of
the supplied list, matched either against the full normalized name or
against the suffix after the last dot. -/
theorem pickMergeDir_some (raw : List Char) (ps : List MP) (d : List Char)
    (h : pickMergeDir raw ps = some d) :
    ∃ p : MP, p ∈ ps ∧ d = safeNameComponent p.raw ∧
      (isPrefixList p.norm (normalizeForMerge raw) = true ∨
        ∃ di : Nat, lastIndexOfChar (normalizeForMerge raw) '.' = some di ∧ 0 < di ∧
          sufMatch ((normalizeForMerge raw).drop (di + 1)) p = true) := by
  simp only [pickMergeDir] at h
  cases hdot : lastIndexOfChar (normalizeForMerge raw) '.' with
  | none =>
    simp only [hdot] at h
    cases hbest : bestPref (normalizeForMerge raw) ps none with
    | none => simp [hbest] at h
    | some p =>
      simp only [hbest, Option.map_some'] at h
      rcases bestPref_some (normalizeForMerge raw) ps none p hbest with ⟨hin, hm⟩ | heq
      · exact ⟨p, hin, (Option.some.inj h).symm, Or.inl hm⟩
      · simp at heq
  | some di =>
    simp only [hdot] at h
    by_cases hpos : 0 < di
    · rw [if_pos hpos] at h
      cases hbest : bestSuffix ((normalizeForMerge raw).drop (di + 1)) ps none with
      | none =>
        simp only [hbest] at h
        cases hbest2 : bestPref (normalizeForMerge raw) ps none with
        | none => simp [hbest2] at h
        | some p =>
          simp only [hbest2, Option.map_some'] at h
          rcases bestPref_some (normalizeForMerge raw) ps none p hbest2 with ⟨hin, hm⟩ | heq
          · exact ⟨p, hin, (Option.some.inj h).symm, Or.inl hm⟩
          · simp at heq
      | some p =>
        simp only [hbest] at h
        rcases bestSuffix_some ((normalizeForMerge raw).drop (di + 1)) ps none p hbest with
          ⟨hin, hm⟩ | heq
        · exact ⟨p, hin, (Option.some.inj h).symm, Or.inr ⟨di, rfl, hpos, hm⟩⟩
        · simp at heq
    · rw [if_neg hpos] at h
      cases hbest2 : bestPref (normalizeForMerge raw) ps none with
      | none => simp [hbest2] at h
      | some p =>
        simp only [hbest2, Option.map_some'] at h
        rcases bestPref_some (normalizeForMerge raw) ps none p hbest2 with ⟨hin, hm⟩ | heq
        · exact ⟨p, hin, (Option.some.inj h).symm, Or.inl hm⟩
        · simp at heq


/-! ## Claim theorems: prefix clustering (C5) -/

/-- A bundle whose declared names are `BarAaa`, `BarBbb`, `Zzz.Bar`: the first
two select the cluster `Bar`, and the third is matched into the same
directory through its dotted suffix `Bar`. -/
def cexC5 : List Char := "__d(\"BarAaa\",1);__d(\"BarBbb\",1);__d(\"Zzz.Bar\",1);".toList

/-- C5 counterexample: two modules can be placed into the same cluster
directory although their normalized declared names share no common prefix of
length 3 — `BarAaa` and `Zzz.Bar` both land in `Bar/`, yet their longest
common prefix is empty (the dotted-name branch of `pickMergeDir` matches the
suffix after the last dot, not the name's own prefix). -/
theorem C5_same_dir_shared_prefix_counterexample :
    (buildExportFiles cexC5 true true none).map (fun f => f.fileName) =
        ["Bar/BarAaa.js".toList, "Bar/BarBbb.js".toList, "Bar/Zzz_Bar.js".toList] ∧
      (longestCommonPrefixOf (normalizeForMerge ("BarAaa".toList))
        (normalizeForMerge ("Zzz.Bar".toList))).length < 3 := by
  constructor
  · decide
  · decide

/-- C5 (amended): with prefix clustering at minimum prefix length 3 and
minimum member count 2, (a) every selected cluster has a normalized prefix of
length at least 3 realized by at least 2 distinct input names; (b) every
directory placement of `pickMergeDir` matches some selected cluster, either
by the full normalized name extending the cluster prefix or — for dotted
names — by the suffix after the last dot; and (c) any two modules matched
into the same cluster through the full-name branch have normalized names
sharing that cluster's prefix, of length at least 3.  (The dotted branch is
the exception refuting the original claim.) -/
theorem C5_cluster_membership (names : List (List Char)) :
    (∀ p ∈ computeMergePrefixes names 3 2,
        3 ≤ p.norm.length ∧
          ∃ a b : List Char, a ∈ names ∧ b ∈ names ∧ a ≠ b ∧
            isPrefixList p.norm (normalizeForMerge a) = true ∧
            isPrefixList p.norm (normalizeForMerge b) = true) ∧
      (∀ (raw d : List Char), pickMergeDir raw (computeMergePrefixes names 3 2) = some d →
        ∃ p ∈ computeMergePrefixes names 3 2, d = safeNameComponent p.raw ∧
          (isPrefixList p.norm (normalizeForMerge raw) = true ∨
            ∃ di : Nat, lastIndexOfChar (normalizeForMerge raw) '.' = some di ∧ 0 < di ∧
              sufMatch ((normalizeForMerge raw).drop (di + 1)) p = true)) ∧
      (∀ p ∈ computeMergePrefixes names 3 2, ∀ a b : List Char,
        isPrefixList p.norm (normalizeForMerge a) = true →
        isPrefixList p.norm (normalizeForMerge b) = true →
        ∃ c : List Char, 3 ≤ c.length ∧ isPrefixList c (normalizeForMerge a) = true ∧
          isPrefixList c (normalizeForMerge b) = true) := by
  refine ⟨fun p hp => computeMergePrefixes_sound names p hp, ?_, ?_⟩
  · intro raw d h
    obtain ⟨p, hin, hd, hmatch⟩ := pickMergeDir_some raw (computeMergePrefixes names 3 2) d h
    exact ⟨p, hin, hd, hmatch⟩
  · intro p hp a b ha hb
    exact ⟨p.norm, (computeMergePrefixes_sound names p hp).1, ha, hb⟩

/-- Witness for the amended C5: on declared names `BarAaa`, `BarBbb`,
`Zzz.Bar`, the placement of `BarAaa` into directory `Bar` is justified by the
selected cluster `Bar`. -/
theorem C5_cluster_membership_witness :
    ∃ p ∈ computeMergePrefixes ["BarAaa".toList, "BarBbb".toList, "Zzz.Bar".toList] 3 2,
      "Bar".toList = safeNameComponent p.raw ∧
        (isPrefixList p.norm (normalizeForMerge ("BarAaa".toList)) = true ∨
          ∃ di : Nat, lastIndexOfChar (normalizeForMerge ("BarAaa".toList)) '.' = some di ∧
            0 < di ∧
            sufMatch ((normalizeForMerge ("BarAaa".toList)).drop (di + 1)) p = true) :=
  (C5_cluster_membership ["BarAaa".toList, "BarBbb".toList, "Zzz.Bar".toList]).2.1
    ("BarAaa".toList) ("Bar".toList) (by decide)

/-! ## Lemmas about the bounded concurrency runner -/

theorem get?_set_decomp {α : Type} (l : List α) (k : Nat) (a : α) (h : l.get? k = some a) :
    ∃ pre post : List α, l = pre ++ a :: post ∧ pre.length = k ∧
      ∀ b : α, l.set k b = pre ++ b :: post := by
  induction l generalizing k with
  | nil => simp at h
  | cons x xs ih =>
    cases k with
    | zero =>
      obtain rfl : x = a := by simpa using h
      exact ⟨[], xs, rfl, rfl, fun b => rfl⟩
    | succ k =>
      simp only [List.get?_cons_succ] at h
      obtain ⟨pre, post, h1, h2, h3⟩ := ih k h
      refine ⟨x :: pre, post, by simp [h1], by simp [h2], fun b => ?_⟩
      simp [List.set, h3 b]

theorem filterMap_middle {α β : Type} (f : α → Option β) (pre post : List α) (r : α) :
    (pre ++ r :: post).filterMap f =
      pre.filterMap f ++ ((f r).toList ++ post.filterMap f) := by
  rw [List.filterMap_append]
  congr 1
  cases hf : f r <;> simp [List.filterMap_cons, hf]

/-- The reachability invariant of the `runWithConcurrency` transition system:
the runner count is fixed; the dispatch history is exactly the initial
segment of indices handed out by `nextIdx`; every dispatched index is
currently accounted for exactly once as completed, in flight, or failed; and
a runner only returns after `nextIdx` passed the item count. -/
def RInvP (len limit : Nat) (st : RCState) : Prop :=
  st.runners.length = min (max 1 limit) len ∧
    st.dispatched = List.range (min st.next len) ∧
    (st.dispatched : Multiset Nat) =
      (st.completed : Multiset Nat) + (runningIdxs st.runners : Multiset Nat) +
        (failedIdxs st.runners : Multiset Nat) ∧
    (RState.done ∈ st.runners → len ≤ st.next)

theorem runningIdxs_replicate (n : Nat) :
    runningIdxs (List.replicate n RState.ready) = [] :=
  List.filterMap_eq_nil_iff.mpr fun a ha => by rw [List.eq_of_mem_replicate ha]; rfl

theorem failedIdxs_replicate (n : Nat) :
    failedIdxs (List.replicate n RState.ready) = [] :=
  List.filterMap_eq_nil_iff.mpr fun a ha => by rw [List.eq_of_mem_replicate ha]; rfl

theorem rinv_init (len limit : Nat) : RInvP len limit (initRC len limit) := by
  refine ⟨by simp [initRC], by simp [initRC],
    by simp [initRC, runningIdxs_replicate, failedIdxs_replicate], ?_⟩
  intro h
  simp only [initRC] at h
  have := List.eq_of_mem_replicate h
  exact absurd this (by simp)

theorem rinv_step (len limit : Nat) (st st' : RCState) (hinv : RInvP len limit st)
    (hstep : RStep len st st') : RInvP len limit st' := by
  obtain ⟨hlen, hdisp, hms, hdone⟩ := hinv
  cases hstep with
  | dispatch k st h hlt =>
    obtain ⟨pre, post, hdec, hklen, hset⟩ := get?_set_decomp st.runners k RState.ready h
    refine ⟨by rw [List.length_set]; exact hlen, ?_, ?_, ?_⟩
    · simp only [hdisp]
      rw [Nat.min_eq_left (by omega), Nat.min_eq_left (by omega), List.range_succ]
    · show ((st.dispatched ++ [st.next] : List Nat) : Multiset Nat) = _
      rw [hset]
      rw [hdec] at hms
      simp only [runningIdxs, failedIdxs, filterMap_middle, runOf, failOf,
        Option.toList] at hms ⊢
      simp only [← Multiset.coe_add, List.append_nil, List.nil_append] at hms ⊢
      rw [hms]
      abel
    · intro hmem
      rw [hset] at hmem
      have hd : RState.done ∈ st.runners := by
        rw [hdec]
        rcases List.mem_append.mp hmem with hp | hc
        · exact List.mem_append.mpr (Or.inl hp)
        · rcases List.mem_cons.mp hc with heq | hq
          · exact absurd heq (by simp)
          · exact List.mem_append.mpr (Or.inr (List.mem_cons_of_mem _ hq))
      have := hdone hd
      show len ≤ st.next + 1
      omega
  | exitLoop k st h hge =>
    obtain ⟨pre, post, hdec, hklen, hset⟩ := get?_set_decomp st.runners k RState.ready h
    refine ⟨by rw [List.length_set]; exact hlen, ?_, ?_, ?_⟩
    · simp only [hdisp]
      rw [Nat.min_eq_right (by omega), Nat.min_eq_right (by omega)]
    · rw [hset]
      rw [hdec] at hms
      simp only [runningIdxs, failedIdxs, filterMap_middle, runOf, failOf,
        Option.toList] at hms ⊢
      simp only [← Multiset.coe_add, List.append_nil, List.nil_append] at hms ⊢
      rw [hms]
    · intro _
      show len ≤ st.next + 1
      omega
  | complete k idx st h =>
    obtain ⟨pre, post, hdec, hklen, hset⟩ := get?_set_decomp st.runners k (RState.running idx) h
    refine ⟨by rw [List.length_set]; exact hlen, hdisp, ?_, ?_⟩
    · rw [hset]
      rw [hdec] at hms
      simp only [runningIdxs, failedIdxs, filterMap_middle, runOf, failOf,
        Option.toList] at hms ⊢
      simp only [← Multiset.coe_add, List.append_nil, List.nil_append] at hms ⊢
      rw [hms]
      abel
    · intro hmem
      rw [hset] at hmem
      apply hdone
      rw [hdec]
      rcases List.mem_append.mp hmem with hp | hc
      · exact List.mem_append.mpr (Or.inl hp)
      · rcases List.mem_cons.mp hc with heq | hq
        · exact absurd heq (by simp)
        · exact List.mem_append.mpr (Or.inr (List.mem_cons_of_mem _ hq))
  | fail k idx st h =>
    obtain ⟨pre, post, hdec, hklen, hset⟩ := get?_set_decomp st.runners k (RState.running idx) h
    refine ⟨by rw [List.length_set]; exact hlen, hdisp, ?_, ?_⟩
    · rw [hset]
      rw [hdec] at hms
      simp only [runningIdxs, failedIdxs, filterMap_middle, runOf, failOf,
        Option.toList] at hms ⊢
      simp only [← Multiset.coe_add, List.append_nil, List.nil_append] at hms ⊢
      rw [hms]
      abel
    · intro hmem
      rw [hset] at hmem
      apply hdone
      rw [hdec]
      rcases List.mem_append.mp hmem with hp | hc
      · exact List.mem_append.mpr (Or.inl hp)
      · rcases List.mem_cons.mp hc with heq | hq
        · exact absurd heq (by simp)
        · exact List.mem_append.mpr (Or.inr (List.mem_cons_of_mem _ hq))

theorem rinv_reach (len limit : Nat) (st : RCState) (h : RReach len limit st) :
    RInvP len limit st := by
  induction h with
  | refl => exact rinv_init len limit
  | tail hab hbc ih => exact rinv_step len limit _ _ ih hbc

theorem mem_failedIdxs (rs : List RState) (j : Nat) (h : RState.failed j ∈ rs) :
    j ∈ failedIdxs rs := by
  unfold failedIdxs
  exact List.mem_filterMap.mpr ⟨RState.failed j, h, rfl⟩

theorem allDone_completed_perm (len limit : Nat) (st : RCState) (hlim : 1 ≤ limit)
    (hinv : RInvP len limit st) (hall : ∀ r ∈ st.runners, r = RState.done) :
    st.completed.Perm (List.range len) := by
  obtain ⟨hlen, hdisp, hms, hdone⟩ := hinv
  have hrun : runningIdxs st.runners = [] := by
    unfold runningIdxs
    refine List.filterMap_eq_nil_iff.mpr fun r hr => ?_
    rw [hall r hr]
    rfl
  have hfail : failedIdxs st.runners = [] := by
    unfold failedIdxs
    refine List.filterMap_eq_nil_iff.mpr fun r hr => ?_
    rw [hall r hr]
    rfl
  rw [hrun, hfail] at hms
  simp only [Multiset.coe_nil, add_zero] at hms
  have hperm : st.dispatched.Perm st.completed := Multiset.coe_eq_coe.mp hms
  by_cases hlz : len = 0
  · subst hlz
    have : st.dispatched = [] := by simp [hdisp]
    rw [this] at hperm
    simpa using (hperm.symm.trans (List.Perm.refl []))
  · have hlen1 : 1 ≤ st.runners.length := by
      rw [hlen]
      have : max 1 limit = limit := Nat.max_eq_right hlim
      omega
    obtain ⟨r0, hr0⟩ : ∃ x, x ∈ st.runners := by
      cases hrs : st.runners with
      | nil => rw [hrs] at hlen1; simp at hlen1
      | cons a t => exact ⟨a, List.mem_cons_self a t⟩
    have hd0 : RState.done ∈ st.runners := by
      rw [← hall r0 hr0]
      exact hr0
    have hnext := hdone hd0
    rw [Nat.min_eq_right (by omega)] at hdisp
    rw [hdisp] at hperm
    exact hperm.symm

/-! ## Claim theorems: bounded concurrency runner (C6, C9) -/

/-- C6: for every item list and `limit ≥ 1`, in every reachable state of
`runWithConcurrency` at most `limit` worker invocations are in flight; no
item is ever dispatched twice and only valid indices are dispatched; when
every runner has returned (the state in which `Promise.all` resolves), every
item has been completed exactly once; and the call can settle only once all
items completed or some invocation failed. -/
theorem C6_runner_bounded_exactly_once (len limit : Nat) (st : RCState)
    (hlim : 1 ≤ limit) (hr : RReach len limit st) :
    (runningIdxs st.runners).length ≤ limit ∧
      st.dispatched.Nodup ∧ (∀ i ∈ st.dispatched, i < len) ∧
      ((∀ r ∈ st.runners, r = RState.done) → st.completed.Perm (List.range len)) ∧
      (canReturn st →
        failedIdxs st.runners ≠ [] ∨ st.completed.Perm (List.range len)) := by
  have hinv := rinv_reach len limit st hr
  obtain ⟨hlen, hdisp, hms, hdone⟩ := hinv
  refine ⟨?_, ?_, ?_, ?_, ?_⟩
  · calc (runningIdxs st.runners).length ≤ st.runners.length :=
          List.length_filterMap_le runOf st.runners
      _ = min (max 1 limit) len := hlen
      _ ≤ max 1 limit := Nat.min_le_left _ _
      _ = limit := Nat.max_eq_right hlim
  · rw [hdisp]
    exact List.nodup_range _
  · intro i hi
    rw [hdisp] at hi
    have := List.mem_range.mp hi
    omega
  · exact allDone_completed_perm len limit st hlim ⟨hlen, hdisp, hms, hdone⟩
  · intro hcr
    rcases hcr with hall | hfail
    · exact Or.inr (allDone_completed_perm len limit st hlim ⟨hlen, hdisp, hms, hdone⟩ hall)
    · exact Or.inl hfail

/-- Witness for C6 at the initial state of a two-item, limit-one run. -/
theorem C6_runner_bounded_exactly_once_witness :
    (runningIdxs (initRC 2 1).runners).length ≤ 1 ∧
      (initRC 2 1).dispatched.Nodup ∧ (∀ i ∈ (initRC 2 1).dispatched, i < 2) ∧
      ((∀ r ∈ (initRC 2 1).runners, r = RState.done) →
        (initRC 2 1).completed.Perm (List.range 2)) ∧
      (canReturn (initRC 2 1) →
        failedIdxs (initRC 2 1).runners ≠ [] ∨ (initRC 2 1).completed.Perm (List.range 2)) :=
  C6_runner_bounded_exactly_once 2 1 (initRC 2 1) (by omega) Relation.ReflTransGen.refl

/-- The reachable three-step state of a `len = 2`, `limit = 2` run in which
runner 0 has failed on item 0 while runner 1 still has item 1 in flight. -/
theorem c9_failed_while_running_reachable :
    RReach 2 2 (RCState.mk 2 [RState.failed 0, RState.running 1] [0, 1] []) := by
  have h1 : RStep 2 (initRC 2 2)
      (RCState.mk 1 [RState.running 0, RState.ready] [0] []) := by
    exact RStep.dispatch 0 (initRC 2 2) (by decide) (by decide)
  have h2 : RStep 2 (RCState.mk 1 [RState.running 0, RState.ready] [0] [])
      (RCState.mk 2 [RState.running 0, RState.running 1] [0, 1] []) := by
    exact RStep.dispatch 1 (RCState.mk 1 [RState.running 0, RState.ready] [0] [])
      (by decide) (by decide)
  have h3 : RStep 2 (RCState.mk 2 [RState.running 0, RState.running 1] [0, 1] [])
      (RCState.mk 2 [RState.failed 0, RState.running 1] [0, 1] []) := by
    exact RStep.fail 0 0 (RCState.mk 2 [RState.running 0, RState.running 1] [0, 1] [])
      (by decide)
  exact Relation.ReflTransGen.tail
    (Relation.ReflTransGen.tail (Relation.ReflTransGen.single h1) h2) h3

/-- C9 counterexample: `runWithConcurrency` does NOT wait for all dispatched
work to settle before surfacing a failure — there is a reachable state in
which the joined promise can already reject (a runner has failed) while a
sibling invocation is still in flight.  `Promise.all` rejects on the first
runner rejection; it does not accumulate failures until all work settles. -/
theorem C9_failure_surfaces_immediately_counterexample :
    ∃ st : RCState, RReach 2 2 st ∧ canReturn st ∧ runningIdxs st.runners ≠ [] :=
  ⟨RCState.mk 2 [RState.failed 0, RState.running 1] [0, 1] [],
    c9_failed_while_running_reachable, by decide, by decide⟩

/-- C9 (amended): a worker-invocation failure does not cancel in-flight
siblings — a running sibling can still take its completion step afterwards —
and surviving (non-failed) runners continue to dispatch items not yet
scheduled; however the runner surfaces the first failure immediately (the
`Promise.all` join can reject while siblings are still in flight), rather
than after all dispatched work settles. -/
theorem C9_failure_no_cancellation (len limit : Nat) (st : RCState)
    (hr : RReach len limit st) :
    (∀ k idx : Nat, st.runners.get? k = some (RState.running idx) →
        RStep len st (RCState.mk st.next (st.runners.set k RState.ready) st.dispatched
          (st.completed ++ [idx]))) ∧
      (∀ k : Nat, st.runners.get? k = some RState.ready → st.next < len →
        RStep len st (RCState.mk (st.next + 1)
          (st.runners.set k (RState.running st.next)) (st.dispatched ++ [st.next])
          st.completed)) ∧
      (∀ j : Nat, RState.failed j ∈ st.runners → canReturn st) := by
  refine ⟨fun k idx h => RStep.complete k idx st h,
    fun k h hlt => RStep.dispatch k st h hlt, fun j hj => ?_⟩
  right
  intro hnil
  have := mem_failedIdxs st.runners j hj
  rw [hnil] at this
  simp at this

/-- Witness for the amended C9 at the reachable failed-while-running state:
the in-flight sibling (runner 1, item 1) can still complete. -/
theorem C9_failure_no_cancellation_witness :
    RStep 2 (RCState.mk 2 [RState.failed 0, RState.running 1] [0, 1] [])
      (RCState.mk 2 ([RState.failed 0, RState.running 1].set 1 RState.ready) [0, 1]
        ([] ++ [1])) :=
  (C9_failure_no_cancellation 2 2 (RCState.mk 2 [RState.failed 0, RState.running 1] [0, 1] [])
    c9_failed_while_running_reachable).1 1 1 (by decide)

/-! ## Claim theorems: worker pool error handling (C7) -/

/-- A pool of two workers with request 1 assigned to worker 0 and request 2
assigned to worker 1 by the round-robin. -/
def cexC7Pool : PoolState := processAssign (processAssign (PoolState.mk 2 0 []) 1) 2

/-- C7 counterexample: when a worker fails, `onWorkerError` does NOT reject
only the requests of that worker — with request 1 on worker 0 and request 2
on worker 1, an error raised by worker 0 rejects both requests, including
request 2 which is in flight on worker 1. -/
theorem C7_per_worker_isolation_counterexample :
    cexC7Pool.tasks = [PoolTask.mk 1 0, PoolTask.mk 2 1] ∧
      (onWorkerError cexC7Pool).1 = [1, 2] ∧ (onWorkerError cexC7Pool).1 ≠ [1] := by
  refine ⟨by decide, by decide, by decide⟩

/-- C7 (amended): a worker error rejects ALL requests pending in the pool —
the handler walks the whole task table without consulting which worker
raised the error — and empties the table; the pool's worker set and
round-robin cursor are untouched, so later requests proceed normally. -/
theorem C7_worker_error_rejects_all (st : PoolState) :
    (onWorkerError st).1 = st.tasks.map (fun t => t.id) ∧
      (onWorkerError st).2.tasks = [] ∧
      (onWorkerError st).2.workerCount = st.workerCount ∧
      (onWorkerError st).2.nextWorkerIdx = st.nextWorkerIdx ∧
      (∀ t ∈ st.tasks, t.id ∈ (onWorkerError st).1) ∧
      ∀ (taskId : Nat), (processAssign st taskId).tasks =
        st.tasks ++ [PoolTask.mk taskId st.nextWorkerIdx] := by
  refine ⟨rfl, rfl, rfl, rfl, fun t ht => List.mem_map.mpr ⟨t, ht, rfl⟩, fun taskId => rfl⟩

/-- Witness for the amended C7: in the two-worker pool, the request assigned
to worker 1 is among those rejected by the (worker 0) error. -/
theorem C7_worker_error_rejects_all_witness :
    PoolTask.mk 2 1 ∈ cexC7Pool.tasks → (2 : Nat) ∈ (onWorkerError cexC7Pool).1 :=
  (C7_worker_error_rejects_all cexC7Pool).2.2.2.2.1 (PoolTask.mk 2 1)

end WaExport
